import Mathlib

/-!
# Verification of the `omar` supervisor core

A shallow embedding of the supervisor core of the `omar` repository
(a tmux-based fleet supervisor for coding agents), together with proofs
about the embedded operations.

Embedded components:
* the liveness (health) classification of agent sessions;
* `App::refresh`'s session partition and its file-write behaviour;
* `memory::write_memory` (snapshot + stale-entry purge);
* `App::generate_agent_name`;
* `build_tree` (the chain-of-command hierarchy);
* `projects.rs` (parse/save of the numbered project file);
* the HTTP handlers `spawn_agent` (parent auto-inference) and `kill_agent`;
* `shell_escape` / `wrap_command` of the Docker sandbox provider, together
  with a POSIX field splitter used to state the quoting round-trip.

Rust `HashMap`s are modelled as association lists with unique keys
(lookup = first match); strings are Lean `String`s; filesystem and tmux
effects are modelled by explicit state and write logs.
-/

namespace Omar

/-- The reserved root (manager) session name, `MANAGER_SESSION` in
`src/manager/mod.rs`. -/
def MANAGER_SESSION : String := "oma-manager"

/-- The dashboard's own session name, `DASHBOARD_SESSION` in `src/main.rs`. -/
def DASHBOARD_SESSION : String := "omar-dashboard"

/-- A tmux session as parsed by `TmuxClient::list_sessions`
(`src/tmux/session.rs`). -/
structure Session where
  name : String
  activity : Int
  attached : Bool
  panePid : Nat
  deriving Repr, DecidableEq

/-- Modelled from the spec: the final-design liveness `HealthState`.
The `src/tmux/health.rs` checked into `src/` is an earlier in-tree
iteration (four states, incompatible constructor arity); the enum that
`src/app.rs` actually compiles against has exactly the two states
`Running` and `Idle` (`App::health_counts` matches exhaustively on them). -/
inductive HealthState where
  | Running
  | Idle
  deriving Repr, DecidableEq

/-- `HealthState::as_str` of the final design (values used by
`memory::write_memory` and the API serialization). -/
def HealthState.as_str : HealthState → String
  | .Running => "running"
  | .Idle => "idle"

/-- Detailed health info of the final design (`state`, `last_output`),
as constructed in the `src/app.rs` tests. -/
structure HealthInfo where
  state : HealthState
  lastOutput : String
  deriving Repr, DecidableEq

/-- `AgentInfo` from `src/app.rs`: a session together with its
classification for the current tick. -/
structure AgentInfo where
  session : Session
  health : HealthState
  healthInfo : HealthInfo
  deriving Repr, DecidableEq

/-! ## Liveness engine (frame-diff classifier)

Modelled from the spec: the frame-diff `HealthChecker` used by
`src/app.rs` (2-argument constructor, `check_detailed(&session_name)`,
`retain_sessions`) is not present under `src/`; the file at
`src/tmux/health.rs` is an earlier iteration.  The spec defines the
classifier: on first observation of a session store the captured tail
and report `Running`; on each later tick report `Running` iff the fresh
capture differs from the stored tail, storing the new capture in either
case; stored tails of vanished sessions are purged each tick. -/

/-- The checker's process-local per-session frame store:
session name to last captured tail. -/
def FrameStore := List (String × String)

/-- Association-list lookup (models `HashMap::get`). -/
def FrameStore.lookup (st : FrameStore) (session : String) : Option String :=
  (List.lookup session st)

/-- Association-list upsert (models `HashMap::insert`). -/
def FrameStore.store (st : FrameStore) (session capture : String) : FrameStore :=
  match st with
  | [] => [(session, capture)]
  | (k, v) :: rest =>
      if k = session then (k, capture) :: rest
      else (k, v) :: FrameStore.store rest session capture

/-- Modelled from the spec: one frame-diff classification step.  Takes the
current frame store and the freshly captured tail, returns the reported
state and the updated store. -/
def frameDiffCheck (st : FrameStore) (session capture : String) :
    HealthState × FrameStore :=
  match st.lookup session with
  | none => (HealthState.Running, st.store session capture)
  | some prev =>
      (if capture ≠ prev then HealthState.Running else HealthState.Idle,
       st.store session capture)

/-- Modelled from the spec: the secondary activity-timestamp classifier
(`Running` iff `now - last_activity < idle_threshold`, else `Idle`). -/
def activityCheck (now threshold : Int) (s : Session) : HealthState :=
  if now - s.activity < threshold then HealthState.Running else HealthState.Idle

/-- Modelled from the spec / `HealthChecker::retain_sessions` as called from
`App::refresh`: drop stored frames of sessions no longer present. -/
def FrameStore.retainSessions (st : FrameStore) (active : List String) :
    FrameStore :=
  st.filter (fun kv => active.contains kv.1)

theorem FrameStore.lookup_store_self (st : FrameStore) (session capture : String) :
    (st.store session capture).lookup session = some capture := by
  induction st with
  | nil => simp [FrameStore.store, FrameStore.lookup, List.lookup]
  | cons kv rest ih =>
      obtain ⟨k, v⟩ := kv
      by_cases hk : k = session
      · subst hk
        simp [FrameStore.store, FrameStore.lookup, List.lookup]
      · simp only [FrameStore.store, if_neg hk]
        have hbe : (session == k) = false := beq_eq_false_iff_ne.mpr (Ne.symm hk)
        simpa [FrameStore.lookup, List.lookup, hbe] using ih

/-- C1: for every session, the frame-diff classifier reports `Running` on the
first observation (and stores the capture); on every later tick it reports
`Running` iff the fresh capture differs from the previously stored tail,
storing the new capture in either case. -/
theorem frameDiff_classification (st : FrameStore) (session capture : String) :
    (st.lookup session = none →
      frameDiffCheck st session capture =
        (HealthState.Running, st.store session capture)) ∧
    (∀ prev, st.lookup session = some prev →
      ((frameDiffCheck st session capture).1 = HealthState.Running ↔
        capture ≠ prev) ∧
      ((frameDiffCheck st session capture).2).lookup session = some capture) := by
  constructor
  · intro hnone
    simp [frameDiffCheck, hnone]
  · intro prev hprev
    refine ⟨?_, ?_⟩
    · by_cases h : capture = prev
      · simp [frameDiffCheck, hprev, h]
      · simp [frameDiffCheck, hprev, h]
    · by_cases h : capture = prev <;>
        simp [frameDiffCheck, hprev, h, FrameStore.lookup_store_self]

/-- C1 witness: concrete run — first observation of `"s"` is `Running`; a
second tick with an unchanged capture is `Idle` and restores the capture. -/
theorem frameDiff_classification_witness :
    (FrameStore.lookup [] "s" = none ∧
      frameDiffCheck [] "s" "out" =
        (HealthState.Running, FrameStore.store [] "s" "out")) ∧
    (FrameStore.lookup [("s", "out")] "s" = some "out" ∧
      ((frameDiffCheck [("s", "out")] "s" "out").1 = HealthState.Running ↔
        ("out" : String) ≠ "out")) := by
  refine ⟨⟨?_, (frameDiff_classification [] "s" "out").1 ?_⟩, ⟨?_, ?_⟩⟩
  · decide
  · decide
  · decide
  · exact (((frameDiff_classification [("s", "out")] "s" "out").2 "out"
      (by decide)).1)

/-- C2: the liveness classification always yields one of exactly the two
states `Running` and `Idle` — for every frame store, session and capture
(frame-diff variant) and for every timestamp input (activity variant).
There is no `Stuck` state in the final design's `HealthState`. -/
theorem health_two_states (st : FrameStore) (session capture : String)
    (now threshold : Int) (s : Session) :
    ((frameDiffCheck st session capture).1 = HealthState.Running ∨
      (frameDiffCheck st session capture).1 = HealthState.Idle) ∧
    (activityCheck now threshold s = HealthState.Running ∨
      activityCheck now threshold s = HealthState.Idle) := by
  constructor
  · rcases h : (frameDiffCheck st session capture).1 with _ | _
    · exact Or.inl rfl
    · exact Or.inr rfl
  · rcases h : activityCheck now threshold s with _ | _
    · exact Or.inl rfl
    · exact Or.inr rfl

/-! ## `App::generate_agent_name` (`src/app.rs`)

```rust
for i in 1..1000 {
    let name = format!("{}{}", self.session_prefix, i);
    if !existing.contains(name.as_str()) { return name; }
}
format!("{}{}", self.session_prefix, unix_seconds)
```
-/

/-- The `for i in 1..1000` search loop: starting at `i`, try up to `fuel`
consecutive indices and return the first whose name `p ++ i` is not taken.
The loop in the source runs 999 iterations starting at `i = 1`. -/
def genSearch (existing : List String) (p : String) : Nat → Nat → Option Nat
  | 0, _ => none
  | fuel + 1, i =>
      if existing.contains (p ++ toString i) then
        genSearch existing p fuel (i + 1)
      else some i

/-- `App::generate_agent_name`, with the current agent-name set, the session
prefix and the current Unix seconds passed explicitly. -/
def generate_agent_name (existing : List String) (p : String) (now : Nat) :
    String :=
  match genSearch existing p 999 1 with
  | some k => p ++ toString k
  | none => p ++ toString now

theorem genSearch_some (existing : List String) (p : String) :
    ∀ fuel i k, genSearch existing p fuel i = some k →
      i ≤ k ∧ k < i + fuel ∧ ¬ existing.contains (p ++ toString k) ∧
        ∀ j, i ≤ j → j < k → existing.contains (p ++ toString j) := by
  intro fuel
  induction fuel with
  | zero => intro i k hg; exact absurd hg (by simp [genSearch])
  | succ n ihn =>
      intro i k hg
      unfold genSearch at hg
      by_cases hc : existing.contains (p ++ toString i)
      · rw [if_pos hc] at hg
        obtain ⟨h1, h2, h3, h4⟩ := ihn (i + 1) k hg
        refine ⟨by omega, by omega, h3, ?_⟩
        intro j hj1 hj2
        rcases Nat.eq_or_lt_of_le hj1 with hj | hj
        · rwa [← hj]
        · exact h4 j (by omega) hj2
      · rw [if_neg hc] at hg
        obtain rfl : i = k := Option.some.inj hg
        exact ⟨Nat.le_refl _, by omega, hc, fun j hj1 hj2 => absurd hj2 (by omega)⟩

theorem genSearch_none (existing : List String) (p : String) :
    ∀ fuel i, genSearch existing p fuel i = none →
      ∀ j, i ≤ j → j < i + fuel → existing.contains (p ++ toString j) := by
  intro fuel
  induction fuel with
  | zero => intro i _ j hj1 hj2; omega
  | succ n ihn =>
      intro i hg j hj1 hj2
      unfold genSearch at hg
      by_cases hc : existing.contains (p ++ toString i)
      · rw [if_pos hc] at hg
        rcases Nat.eq_or_lt_of_le hj1 with hj | hj
        · rwa [← hj]
        · exact ihn (i + 1) hg j (by omega) (by omega)
      · rw [if_neg hc] at hg
        exact absurd hg (by simp)

/-- C5: `generate_agent_name` returns `p ++ k` for the smallest positive
`k < 1000` with `p ++ k` not among the existing names; if `p1 .. p999` are
all taken it falls back to `p ++ now` (Unix seconds). -/
theorem generate_agent_name_lowest_free (existing : List String) (p : String)
    (now : Nat) :
    ((∃ k, 1 ≤ k ∧ k < 1000 ∧ ¬ existing.contains (p ++ toString k)) →
      ∃ k, generate_agent_name existing p now = p ++ toString k ∧
        1 ≤ k ∧ k < 1000 ∧ ¬ existing.contains (p ++ toString k) ∧
        ∀ j, 1 ≤ j → j < k → existing.contains (p ++ toString j)) ∧
    ((∀ k, 1 ≤ k → k < 1000 → existing.contains (p ++ toString k)) →
      generate_agent_name existing p now = p ++ toString now) := by
  constructor
  · rintro ⟨k₀, hk1, hk2, hk3⟩
    cases hg : genSearch existing p 999 1 with
    | none =>
        exact absurd (genSearch_none existing p 999 1 hg k₀ hk1 (by omega)) hk3
    | some k =>
        obtain ⟨h1, h2, h3, h4⟩ := genSearch_some existing p 999 1 k hg
        exact ⟨k, by simp [generate_agent_name, hg], h1, by omega, h3, h4⟩
  · intro hall
    cases hg : genSearch existing p 999 1 with
    | none => simp [generate_agent_name, hg]
    | some k =>
        obtain ⟨h1, h2, h3, _⟩ := genSearch_some existing p 999 1 k hg
        exact absurd (hall k h1 (by omega)) h3

/-- C5 witness: with existing names `{a1, a2, a4}` and prefix `a`, the
generated name is `a3` (the lowest free index). -/
theorem generate_agent_name_lowest_free_witness :
    generate_agent_name ["a1", "a2", "a4"] "a" 77 = "a3" ∧
      ∃ k, generate_agent_name ["a1", "a2", "a4"] "a" 77 = "a" ++ toString k ∧
        1 ≤ k ∧ k < 1000 ∧
        ¬ (["a1", "a2", "a4"] : List String).contains ("a" ++ toString k) ∧
        ∀ j, 1 ≤ j → j < k →
          (["a1", "a2", "a4"] : List String).contains ("a" ++ toString j) := by
  constructor
  · rfl
  · exact (generate_agent_name_lowest_free ["a1", "a2", "a4"] "a" 77).1
      ⟨3, by decide, by decide, by decide⟩

/-! ## Projects file (`src/projects.rs`)

`parse_projects` accepts lines of the form `digits ++ ". " ++ name` (the
line is `trim`med first, exactly one leading ASCII digit is stripped, the
remaining leading digits are stripped, then `". "`, and the rest is
`trim`med and must be nonempty); ids are assigned by position in the
accepted subsequence.  `save_projects` writes `"{i+1}. {name}"` lines
joined by `\n` with a trailing newline when nonempty.

Strings are handled at the `List Char` level; `trimChars` models Rust's
`str::trim` (they agree on ASCII whitespace), `rustLines` models
`str::lines` (split at `\n`, drop a final empty fragment, strip a `\r`
preceding each `\n`). -/

/-- A project entry (`Project` in `src/projects.rs`). -/
structure Project where
  id : Nat
  name : String
  deriving Repr, DecidableEq

/-- Strip one trailing carriage return (the `\r` of a `\r\n` line ending). -/
def stripCr (l : List Char) : List Char :=
  if l.getLast? = some '\r' then l.dropLast else l

/-- Worker for `rustLines`: `cur` is the reversed current line fragment. -/
def linesAux (cur : List Char) : List Char → List (List Char)
  | [] => if cur.isEmpty then [] else [cur.reverse]
  | c :: rest =>
      if c = '\n' then stripCr cur.reverse :: linesAux [] rest
      else linesAux (c :: cur) rest

/-- Rust's `str::lines`. -/
def rustLines (cs : List Char) : List (List Char) :=
  linesAux [] cs

theorem linesAux_nil (cur : List Char) :
    linesAux cur [] = if cur.isEmpty then [] else [cur.reverse] := rfl

theorem linesAux_cons (cur : List Char) (c : Char) (rest : List Char) :
    linesAux cur (c :: rest) =
      if c = '\n' then stripCr cur.reverse :: linesAux [] rest
      else linesAux (c :: cur) rest := rfl

/-- Remove trailing whitespace. -/
def dropTrailingWs (l : List Char) : List Char :=
  (l.reverse.dropWhile Char.isWhitespace).reverse

/-- Rust's `str::trim` on a line (leading and trailing whitespace). -/
def trimChars (l : List Char) : List Char :=
  dropTrailingWs (l.dropWhile Char.isWhitespace)

/-- Rust's `strip_prefix(". ")` followed by the trim-and-nonempty check on
the remaining name. -/
def parseAfterDigits : List Char → Option (List Char)
  | c1 :: c2 :: nameChars =>
      if c1 = '.' ∧ c2 = ' ' then
        let name := trimChars nameChars
        if name.isEmpty then none else some name
      else none
  | _ => none

/-- One iteration of the `parse_projects` loop: trim the line, require one
leading ASCII digit, strip the remaining digits, require `". "`, trim the
rest, require it nonempty; return the accepted name. -/
def parseLine? (line : List Char) : Option (List Char) :=
  match trimChars line with
  | c :: rest =>
      if c.isDigit then parseAfterDigits (rest.dropWhile Char.isDigit)
      else none
  | [] => none

/-- The accumulation of accepted lines with positional ids
(`projects.len() + 1` at each push). -/
def parseProjectsAux : List (List Char) → Nat → List Project
  | [], _ => []
  | l :: ls, n =>
      match parseLine? l with
      | some name => ⟨n + 1, String.mk name⟩ :: parseProjectsAux ls (n + 1)
      | none => parseProjectsAux ls n

/-- `parse_projects` from `src/projects.rs`. -/
def parse_projects (content : String) : List Project :=
  parseProjectsAux (rustLines content.data) 0

/-- The characters of one saved line, `format!("{}. {}", i + 1, p.name)`. -/
def saveLine (k : Nat) (name : String) : List Char :=
  (Nat.repr k).data ++ '.' :: ' ' :: name.data

/-- The joined (newline-separated, no trailing newline) saved content,
starting at 0-based position `k`. -/
def saveContentChars : List Project → Nat → List Char
  | [], _ => []
  | [p], k => saveLine (k + 1) p.name
  | p :: ps, k => saveLine (k + 1) p.name ++ '\n' :: saveContentChars ps (k + 1)

/-- `save_projects` from `src/projects.rs`: the file content written
(joined lines, plus a trailing newline when nonempty). -/
def save_projects (ps : List Project) : String :=
  match ps with
  | [] => ""
  | _ => String.mk (saveContentChars ps 0 ++ ['\n'])

/-- The regex `^\d+\. .+` of the claim, as a decidable predicate on the
characters of one line (one or more digits, then `". "`, then at least one
character). -/
def matchesNumberedLine (l : List Char) : Bool :=
  match l.span Char.isDigit with
  | (_ :: _, c1 :: c2 :: _ :: _) => c1 == '.' && c2 == ' '
  | _ => false

/-- The renumbering `save_projects` performs: position `k + i + 1` for the
`i`-th project, names unchanged. -/
def renumberFrom (k : Nat) : List Project → List Project
  | [] => []
  | p :: ps => ⟨k + 1, p.name⟩ :: renumberFrom (k + 1) ps

/-- A name that survives the save/load cycle: nonempty, newline-free, and
not starting or ending with whitespace (i.e. unchanged by `trim`). -/
def GoodName (name : String) : Prop :=
  name.data ≠ [] ∧ (∀ c ∈ name.data, c ≠ '\n') ∧
    (∀ c, name.data.head? = some c → c.isWhitespace = false) ∧
    (∀ c, name.data.getLast? = some c → c.isWhitespace = false)

theorem toDigitsCore_chars :
    ∀ fuel n (ds : List Char),
      (∀ c ∈ ds, c.isDigit = true ∧ c.isWhitespace = false ∧ c ≠ '\n') →
      ∀ c ∈ Nat.toDigitsCore 10 fuel n ds,
        c.isDigit = true ∧ c.isWhitespace = false ∧ c ≠ '\n' := by
  intro fuel
  induction fuel with
  | zero => intro n ds hds; simpa [Nat.toDigitsCore] using hds
  | succ f ih =>
      intro n ds hds c hc
      have hd : (Nat.digitChar (n % 10)).isDigit = true ∧
          (Nat.digitChar (n % 10)).isWhitespace = false ∧
          Nat.digitChar (n % 10) ≠ '\n' := by
        have h10 : n % 10 < 10 := Nat.mod_lt _ (by omega)
        interval_cases h : n % 10 <;> simp [Nat.digitChar]
      rw [Nat.toDigitsCore] at hc
      by_cases hz : n / 10 = 0
      · rw [if_pos hz] at hc
        rw [List.mem_cons] at hc
        rcases hc with hc | hc
        · exact hc ▸ hd
        · exact hds c hc
      · rw [if_neg hz] at hc
        refine ih (n / 10) _ ?_ c hc
        intro d hdm
        rw [List.mem_cons] at hdm
        rcases hdm with hdm | hdm
        · exact hdm ▸ hd
        · exact hds d hdm

theorem toDigitsCore_ne_nil :
    ∀ fuel n (ds : List Char), fuel ≠ 0 ∨ ds ≠ [] →
      Nat.toDigitsCore 10 fuel n ds ≠ [] := by
  intro fuel
  induction fuel with
  | zero =>
      intro n ds h
      rcases h with h | h
      · exact absurd rfl h
      · simpa [Nat.toDigitsCore] using h
  | succ f ih =>
      intro n ds _
      rw [Nat.toDigitsCore]
      by_cases hz : n / 10 = 0
      · simp [hz]
      · rw [if_neg hz]
        exact ih (n / 10) _ (Or.inr (by simp))

theorem repr_data_eq (n : Nat) :
    (Nat.repr n).data = Nat.toDigitsCore 10 (n + 1) n [] := rfl

theorem repr_chars (n : Nat) :
    ∀ c ∈ (Nat.repr n).data,
      c.isDigit = true ∧ c.isWhitespace = false ∧ c ≠ '\n' := by
  rw [repr_data_eq]
  exact toDigitsCore_chars (n + 1) n [] (by simp)

theorem repr_ne_nil (n : Nat) : (Nat.repr n).data ≠ [] := by
  rw [repr_data_eq]
  exact toDigitsCore_ne_nil (n + 1) n [] (Or.inl (by omega))

theorem dropWhile_append_of_all {p : Char → Bool} (l1 l2 : List Char)
    (h : ∀ c ∈ l1, p c = true) :
    List.dropWhile p (l1 ++ l2) = List.dropWhile p l2 := by
  induction l1 with
  | nil => rfl
  | cons c t ih =>
      have hc : p c = true := h c (by simp)
      simp only [List.cons_append, List.dropWhile_cons, hc, if_pos]
      exact ih (fun d hd => h d (by simp [hd]))

theorem trimChars_eq_self (l : List Char)
    (hhead : ∀ c, l.head? = some c → c.isWhitespace = false)
    (hlast : ∀ c, l.getLast? = some c → c.isWhitespace = false) :
    trimChars l = l := by
  cases l with
  | nil => rfl
  | cons c t =>
      have hc : c.isWhitespace = false := hhead c rfl
      have h1 : (c :: t).dropWhile Char.isWhitespace = c :: t := by
        simp [List.dropWhile_cons, hc]
      obtain ⟨d, hd⟩ : ∃ d, (c :: t).getLast? = some d := by
        cases h : (c :: t).getLast? with
        | none => exact absurd h (by simp)
        | some d => exact ⟨d, rfl⟩
      have hdws : d.isWhitespace = false := hlast d hd
      have hrev : (c :: t).reverse.head? = some d := by
        rw [List.head?_reverse]; exact hd
      obtain ⟨r, hr⟩ : ∃ r, (c :: t).reverse = d :: r := by
        cases hrv : (c :: t).reverse with
        | nil => rw [hrv] at hrev; simp at hrev
        | cons x r =>
            rw [hrv] at hrev
            simp only [List.head?_cons, Option.some.injEq] at hrev
            subst hrev
            exact ⟨r, rfl⟩
      calc trimChars (c :: t)
          = ((d :: r).dropWhile Char.isWhitespace).reverse := by
            rw [trimChars, h1, dropTrailingWs, hr]
        _ = (d :: r).reverse := by simp [List.dropWhile_cons, hdws]
        _ = c :: t := by rw [← hr, List.reverse_reverse]

theorem saveLine_no_newline (k : Nat) (name : String) (h : GoodName name) :
    ∀ c ∈ saveLine k name, c ≠ '\n' := by
  intro c hc
  rw [saveLine, List.mem_append] at hc
  rcases hc with hc | hc
  · exact (repr_chars k c hc).2.2
  · rw [List.mem_cons] at hc
    rcases hc with hc | hc
    · subst hc; decide
    · rw [List.mem_cons] at hc
      rcases hc with hc | hc
      · subst hc; decide
      · exact h.2.1 c hc

theorem saveLine_getLast? (k : Nat) (name : String) (h : name.data ≠ []) :
    (saveLine k name).getLast? = name.data.getLast? := by
  obtain ⟨d, hd⟩ : ∃ d, name.data.getLast? = some d := by
    cases hx : name.data.getLast? with
    | none => exact absurd (List.getLast?_eq_none_iff.mp hx) h
    | some d => exact ⟨d, rfl⟩
  rw [saveLine]
  have : ('.' :: ' ' :: name.data : List Char) = ['.', ' '] ++ name.data := rfl
  rw [this, List.getLast?_append, List.getLast?_append, hd]
  rfl

theorem trimChars_saveLine (k : Nat) (name : String) (h : GoodName name) :
    trimChars (saveLine k name) = saveLine k name := by
  obtain ⟨c₀, t₀, h₀⟩ : ∃ c₀ t₀, (Nat.repr k).data = c₀ :: t₀ := by
    cases hx : (Nat.repr k).data with
    | nil => exact absurd hx (repr_ne_nil k)
    | cons c t => exact ⟨c, t, rfl⟩
  apply trimChars_eq_self
  · intro c hc
    rw [saveLine, h₀] at hc
    simp only [List.cons_append, List.head?_cons, Option.some.injEq] at hc
    rw [← hc]
    exact (repr_chars k c₀ (by rw [h₀]; simp)).2.1
  · intro c hc
    rw [saveLine_getLast? k name h.1] at hc
    exact h.2.2.2 c hc

theorem parseLine?_saveLine (k : Nat) (name : String) (h : GoodName name) :
    parseLine? (saveLine k name) = some name.data := by
  obtain ⟨c₀, t₀, h₀⟩ : ∃ c₀ t₀, (Nat.repr k).data = c₀ :: t₀ := by
    cases hx : (Nat.repr k).data with
    | nil => exact absurd hx (repr_ne_nil k)
    | cons c t => exact ⟨c, t, rfl⟩
  have hline : saveLine k name = c₀ :: (t₀ ++ '.' :: ' ' :: name.data) := by
    rw [saveLine, h₀]; rfl
  have hdig : c₀.isDigit = true := (repr_chars k c₀ (by rw [h₀]; simp)).1
  have hdrop : (t₀ ++ '.' :: ' ' :: name.data).dropWhile Char.isDigit =
      '.' :: ' ' :: name.data := by
    rw [dropWhile_append_of_all t₀ _ (fun c hc =>
      (repr_chars k c (by rw [h₀]; simp [hc])).1)]
    rw [List.dropWhile_cons_of_neg (by decide)]
  have htrimname : trimChars name.data = name.data :=
    trimChars_eq_self name.data h.2.2.1 h.2.2.2
  have hstep : parseLine? (saveLine k name) =
      if c₀.isDigit then
        parseAfterDigits ((t₀ ++ '.' :: ' ' :: name.data).dropWhile Char.isDigit)
      else none := by
    unfold parseLine?
    rw [trimChars_saveLine k name h, hline]
  rw [hstep, if_pos hdig, hdrop]
  have hred : parseAfterDigits ('.' :: ' ' :: name.data) =
      if (trimChars name.data).isEmpty then none
      else some (trimChars name.data) := by
    simp [parseAfterDigits]
  rw [hred, htrimname, if_neg (by simpa [List.isEmpty_iff] using h.1)]

theorem stripCr_saveLine (k : Nat) (name : String) (h : GoodName name) :
    stripCr (saveLine k name) = saveLine k name := by
  have hne : (saveLine k name).getLast? ≠ some '\r' := by
    rw [saveLine_getLast? k name h.1]
    intro hcon
    exact absurd (h.2.2.2 '\r' hcon) (by decide)
  unfold stripCr
  rw [if_neg hne]

theorem linesAux_chunk (line : List Char) :
    ∀ (cur rest : List Char), (∀ c ∈ line, c ≠ '\n') →
      linesAux cur (line ++ '\n' :: rest) =
        stripCr (cur.reverse ++ line) :: linesAux [] rest := by
  induction line with
  | nil =>
      intro cur rest _
      simp [linesAux]
  | cons c cs ih =>
      intro cur rest h
      have hc : c ≠ '\n' := h c (by simp)
      have hrec := ih (c :: cur) rest (fun d hd => h d (by simp [hd]))
      have hstep : linesAux cur ((c :: cs) ++ '\n' :: rest) =
          linesAux (c :: cur) (cs ++ '\n' :: rest) := by
        rw [List.cons_append, linesAux_cons, if_neg hc]
      rw [hstep, hrec, List.reverse_cons, List.append_assoc,
        List.singleton_append]

theorem parseProjectsAux_cons_some (l : List Char) (ls : List (List Char))
    (n : Nat) (name : List Char) (h : parseLine? l = some name) :
    parseProjectsAux (l :: ls) n =
      ⟨n + 1, String.mk name⟩ :: parseProjectsAux ls (n + 1) := by
  simp only [parseProjectsAux, h]

theorem parseProjectsAux_cons_none (l : List Char) (ls : List (List Char))
    (n : Nat) (h : parseLine? l = none) :
    parseProjectsAux (l :: ls) n = parseProjectsAux ls n := by
  simp only [parseProjectsAux, h]

theorem parse_save_aux :
    ∀ (ps : List Project) (k : Nat), (∀ p ∈ ps, GoodName p.name) →
      parseProjectsAux (linesAux [] (saveContentChars ps k ++ ['\n'])) k =
        renumberFrom k ps := by
  intro ps
  induction ps with
  | nil =>
      intro k _
      show parseProjectsAux (linesAux [] ['\n']) k = renumberFrom k []
      rw [show linesAux [] ['\n'] = [([] : List Char)] from rfl]
      rw [parseProjectsAux_cons_none [] [] k rfl]
      rfl
  | cons p ps ih =>
      intro k h
      have hp : GoodName p.name := h p (by simp)
      have hnl : ∀ c ∈ saveLine (k + 1) p.name, c ≠ '\n' :=
        saveLine_no_newline (k + 1) p.name hp
      have hparse : parseLine? (saveLine (k + 1) p.name) = some p.name.data :=
        parseLine?_saveLine (k + 1) p.name hp
      have hstrip : stripCr (saveLine (k + 1) p.name) = saveLine (k + 1) p.name :=
        stripCr_saveLine (k + 1) p.name hp
      cases ps with
      | nil =>
          have hcontent : saveContentChars [p] k ++ ['\n'] =
              saveLine (k + 1) p.name ++ '\n' :: [] := rfl
          rw [hcontent, linesAux_chunk _ [] [] hnl, List.reverse_nil,
            List.nil_append, hstrip]
          rw [parseProjectsAux_cons_some _ _ _ _ hparse]
          show (⟨k + 1, String.mk p.name.data⟩ : Project) ::
              parseProjectsAux (linesAux [] []) (k + 1) = renumberFrom k [p]
          rfl
      | cons q ps' =>
          have hcontent : saveContentChars (p :: q :: ps') k ++ ['\n'] =
              saveLine (k + 1) p.name ++
                '\n' :: (saveContentChars (q :: ps') (k + 1) ++ ['\n']) := by
            show (saveLine (k + 1) p.name ++
              '\n' :: saveContentChars (q :: ps') (k + 1)) ++ ['\n'] = _
            rw [List.append_assoc]
            rfl
          rw [hcontent, linesAux_chunk _ [] _ hnl, List.reverse_nil,
            List.nil_append, hstrip]
          rw [parseProjectsAux_cons_some _ _ _ _ hparse]
          rw [ih (k + 1) (fun r hr => h r (by simp [hr]))]
          rfl

theorem renumberFrom_names :
    ∀ (ps : List Project) (k : Nat),
      (renumberFrom k ps).map Project.name = ps.map Project.name := by
  intro ps
  induction ps with
  | nil => intro k; rfl
  | cons p ps ih =>
      intro k
      show p.name :: (renumberFrom (k + 1) ps).map Project.name = _
      rw [ih (k + 1)]
      rfl

theorem renumberFrom_length :
    ∀ (ps : List Project) (k : Nat), (renumberFrom k ps).length = ps.length := by
  intro ps
  induction ps with
  | nil => intro k; rfl
  | cons p ps ih =>
      intro k
      show (renumberFrom (k + 1) ps).length + 1 = ps.length + 1
      rw [ih (k + 1)]

theorem renumberFrom_ids :
    ∀ (ps : List Project) (k i : Nat) (hi : i < (renumberFrom k ps).length),
      ((renumberFrom k ps).get ⟨i, hi⟩).id = k + i + 1 := by
  intro ps
  induction ps with
  | nil => intro k i hi; exact absurd hi (by simp [renumberFrom])
  | cons p ps ih =>
      intro k i hi
      cases i with
      | zero => rfl
      | succ j =>
          have hj : j < (renumberFrom (k + 1) ps).length := by
            have : (renumberFrom k (p :: ps)).length =
                (renumberFrom (k + 1) ps).length + 1 := rfl
            omega
          have : ((renumberFrom k (p :: ps)).get ⟨j + 1, hi⟩) =
              ((renumberFrom (k + 1) ps).get ⟨j, hj⟩) := rfl
          rw [this, ih (k + 1) j hj]
          omega

theorem parseLine?_eq_of_trim (line : List Char) (c : Char) (rest : List Char)
    (ht : trimChars line = c :: rest) :
    parseLine? line =
      if c.isDigit then parseAfterDigits (rest.dropWhile Char.isDigit)
      else none := by
  unfold parseLine?
  rw [ht]

theorem parseLine?_eq_none_of_trim_nil (line : List Char)
    (ht : trimChars line = []) : parseLine? line = none := by
  unfold parseLine?
  rw [ht]

/-- A line whose trimmed form does not match `^\d+\. .+` is skipped by the
parser. -/
theorem skipped_of_not_matching (line : List Char)
    (h : matchesNumberedLine (trimChars line) = false) :
    parseLine? line = none := by
  cases ht : trimChars line with
  | nil => exact parseLine?_eq_none_of_trim_nil line ht
  | cons c rest =>
      rw [parseLine?_eq_of_trim line c rest ht]
      cases hdig : c.isDigit with
      | false => simp [hdig]
      | true =>
          rw [if_pos rfl]
          rw [ht] at h
          rw [matchesNumberedLine, List.span_eq_take_drop,
            List.takeWhile_cons_of_pos hdig, List.dropWhile_cons_of_pos hdig]
            at h
          cases hdr : rest.dropWhile Char.isDigit with
          | nil => rfl
          | cons c1 tl1 =>
              cases tl1 with
              | nil => rfl
              | cons c2 tl2 =>
                  rw [hdr] at h
                  cases tl2 with
                  | nil =>
                      show parseAfterDigits [c1, c2] = none
                      simp only [parseAfterDigits]
                      by_cases hpq : c1 = '.' ∧ c2 = ' '
                      · rw [if_pos hpq]
                        rfl
                      · rw [if_neg hpq]
                  | cons x xs =>
                      simp only at h
                      have hpq : ¬ (c1 = '.' ∧ c2 = ' ') := by
                        intro ⟨h1, h2⟩
                        subst h1; subst h2
                        simp at h
                      show parseAfterDigits (c1 :: c2 :: x :: xs) = none
                      simp only [parseAfterDigits]
                      rw [if_neg hpq]

/-- C7 counterexample: the claim fails on the code as stated.  The line
`" 1. x"` does not match `^\d+\. .+` (it starts with a space) yet the parser
accepts it (the code trims the line first); and a project whose name contains
a newline does not survive a save/load round trip. -/
theorem projects_claim_counterexample :
    matchesNumberedLine (" 1. x".data) = false ∧
    parse_projects " 1. x" = [⟨1, "x"⟩] ∧
    (parse_projects (save_projects [⟨1, "a\nb"⟩])).map Project.name = ["a"] ∧
    ("a" : String) ≠ "a\nb" := by
  refine ⟨by decide, by decide, by decide, by decide⟩

/-- C7 (amended): for every list of projects whose names are nonempty,
newline-free and unchanged by trimming, save-then-load yields the same names
in the same order with each id equal to its 1-based position; and every line
whose *trimmed* form does not match `^\d+\. .+` is skipped by the parser. -/
theorem projects_save_load (ps : List Project)
    (h : ∀ p ∈ ps, GoodName p.name) :
    parse_projects (save_projects ps) = renumberFrom 0 ps ∧
    (parse_projects (save_projects ps)).map Project.name =
      ps.map Project.name ∧
    (∀ i (hi : i < (parse_projects (save_projects ps)).length),
      ((parse_projects (save_projects ps)).get ⟨i, hi⟩).id = i + 1) ∧
    (∀ line : List Char, matchesNumberedLine (trimChars line) = false →
      parseLine? line = none) := by
  have hmain : parse_projects (save_projects ps) = renumberFrom 0 ps := by
    cases ps with
    | nil => rfl
    | cons p ps' =>
        show parseProjectsAux
          (rustLines (String.mk (saveContentChars (p :: ps') 0 ++ ['\n'])).data)
          0 = renumberFrom 0 (p :: ps')
        rw [show (String.mk (saveContentChars (p :: ps') 0 ++ ['\n'])).data =
          saveContentChars (p :: ps') 0 ++ ['\n'] from rfl]
        exact parse_save_aux (p :: ps') 0 h
  refine ⟨hmain, ?_, ?_, fun line hl => skipped_of_not_matching line hl⟩
  · rw [hmain]
    exact renumberFrom_names ps 0
  · intro i hi
    have hi' : i < (renumberFrom 0 ps).length := hmain ▸ hi
    rw [List.get_of_eq hmain]
    simpa using renumberFrom_ids ps 0 i hi'

/-- C7 witness: a concrete save/load round trip through
`projects_save_load` — ids renumbered to positions, names preserved. -/
theorem projects_save_load_witness :
    parse_projects (save_projects [⟨5, "Alpha"⟩, ⟨9, "Beta"⟩]) =
      [⟨1, "Alpha"⟩, ⟨2, "Beta"⟩] := by
  have h := (projects_save_load [⟨5, "Alpha"⟩, ⟨9, "Beta"⟩]
    (by intro p hp; fin_cases hp <;> exact ⟨by decide, by decide, by decide,
      by decide⟩)).1
  rw [h]
  rfl

/-! ## HTTP handlers (`src/api/handlers.rs`)

`resolve_session_name` prepends the prefix unless the id already carries
it; `display_name` strips it.  `spawn_agent` records a parent mapping:
the explicit `parent` if given, else — for non-PM roles — the unique live
PM session if there is exactly one.  `kill_agent` guards the reserved
manager session (403), then unknown sessions (404). -/

/-- Rust's `str::starts_with`, at the character level (so that concrete
instances evaluate in the kernel). -/
def strStarts (s p : String) : Bool :=
  p.data.isPrefixOf s.data

/-- `resolve_session_name` from `src/api/handlers.rs`. -/
def resolve_session_name (p id : String) : String :=
  if p = "" ∨ strStarts id p then id else p ++ id

/-- `display_name` / `strip_prefix(...).unwrap_or(...)`. -/
def stripPrefixOr (p s : String) : String :=
  if strStarts s p then String.mk (s.data.drop p.data.length) else s

/-- `TmuxClient::list_sessions`: all tmux sessions whose name starts with
the configured prefix. -/
def clientListSessions (allSessions : List Session) (p : String) :
    List Session :=
  allSessions.filter (fun s => strStarts s.name p)

/-- The PM-session filter in `spawn_agent`: sessions (from
`list_sessions`) whose short name starts with `pm-`. -/
def pmSessionNames (p : String) (sessions : List Session) : List String :=
  (sessions.filter (fun s => strStarts (stripPrefixOr p s.name) "pm-")).map
    (fun s => s.name)

/-- The parent-mapping decision of `spawn_agent` (the
`memory::save_agent_parent` call it performs, if any), as a function of the
resolved new session name, the request's `role` and `parent`, and the
session list returned by `list_sessions` at inference time. -/
def spawnParentChoice (p name : String) (role parent : Option String)
    (sessions : List Session) : Option (String × String) :=
  match parent with
  | some par => some (name, resolve_session_name p par)
  | none =>
      if role = some "project-manager" then none
      else
        match pmSessionNames p sessions with
        | [pm] => some (name, pm)
        | _ => none

/-- C4: with no explicit parent and a non-PM role, exactly one live PM
session means that PM is recorded as the new agent's parent; zero or
two-or-more PM sessions mean no parent entry is recorded. -/
theorem spawn_parent_inference (p name : String) (role : Option String)
    (sessions : List Session) (hrole : role ≠ some "project-manager") :
    ((pmSessionNames p sessions).length = 1 →
      ∃ pm, pmSessionNames p sessions = [pm] ∧
        spawnParentChoice p name role none sessions = some (name, pm)) ∧
    ((pmSessionNames p sessions).length ≠ 1 →
      spawnParentChoice p name role none sessions = none) := by
  constructor
  · intro hlen
    obtain ⟨pm, hpm⟩ : ∃ pm, pmSessionNames p sessions = [pm] := by
      cases hx : pmSessionNames p sessions with
      | nil => rw [hx] at hlen; simp at hlen
      | cons a t =>
          cases t with
          | nil => exact ⟨a, rfl⟩
          | cons b t' => rw [hx] at hlen; simp at hlen
    refine ⟨pm, hpm, ?_⟩
    unfold spawnParentChoice
    rw [if_neg hrole, hpm]
  · intro hlen
    unfold spawnParentChoice
    rw [if_neg hrole]
    cases hx : pmSessionNames p sessions with
    | nil => rfl
    | cons a t =>
        cases t with
        | nil => rw [hx] at hlen; simp at hlen
        | cons b t' => rfl

/-- C4 witness: with one PM session `omar-agent-pm-api` live, the spawned
worker `omar-agent-auth` gets it as parent; with two PMs, no parent. -/
theorem spawn_parent_inference_witness :
    (spawnParentChoice "omar-agent-" "omar-agent-auth" none none
        [⟨"omar-agent-pm-api", 0, false, 1⟩] =
      some ("omar-agent-auth", "omar-agent-pm-api")) ∧
    (spawnParentChoice "omar-agent-" "omar-agent-auth" none none
        [⟨"omar-agent-pm-api", 0, false, 1⟩,
         ⟨"omar-agent-pm-web", 0, false, 2⟩] = none) := by
  constructor
  · obtain ⟨pm, hpm, hc⟩ :=
      (spawn_parent_inference "omar-agent-" "omar-agent-auth" none
        [⟨"omar-agent-pm-api", 0, false, 1⟩] (by simp)).1 (by decide)
    have h1 : pmSessionNames "omar-agent-"
        [⟨"omar-agent-pm-api", 0, false, 1⟩] = ["omar-agent-pm-api"] := by
      decide
    rw [h1] at hpm
    injection hpm with h2 _
    rw [← h2] at hc
    exact hc
  · exact (spawn_parent_inference "omar-agent-" "omar-agent-auth" none
      [⟨"omar-agent-pm-api", 0, false, 1⟩, ⟨"omar-agent-pm-web", 0, false, 2⟩]
      (by simp)).2 (by decide)

/-- The observable outcome of one `kill_agent` call: HTTP status, error
body (if any), the `kill_session` invocations made, and the parent-map
removal performed (if any). -/
structure KillOutcome where
  status : Nat
  errorBody : Option String
  killCalls : List String
  removedParent : Option String
  deriving Repr, DecidableEq

/-- `kill_agent` from `src/api/handlers.rs`.  `hasSession` is the
`tmux has-session` oracle; `killOk` tells whether the `kill_session` CLI
call succeeds, and `killErr` is its error text when it fails. -/
def kill_agent (p id : String) (hasSession : String → Bool)
    (killOk : Bool) (killErr : String) : KillOutcome :=
  let session_name := resolve_session_name p id
  if session_name = MANAGER_SESSION ∨ id = MANAGER_SESSION then
    ⟨403, some "Cannot kill manager via API", [], none⟩
  else if ¬ hasSession session_name then
    ⟨404, some ("Agent '" ++ id ++ "' not found"), [], none⟩
  else if ¬ killOk then
    ⟨500, some ("Failed to kill agent: " ++ killErr), [session_name], none⟩
  else
    ⟨200, none, [session_name], some session_name⟩

/-- C8: a DELETE whose id denotes the reserved root session — literally or
after prefix resolution — yields 403 with body
`{"error":"Cannot kill manager via API"}` and performs no kill; any other
id whose resolved session does not exist yields 404. -/
theorem kill_agent_guards (p id : String) (hasSession : String → Bool)
    (killOk : Bool) (killErr : String) :
    ((resolve_session_name p id = MANAGER_SESSION ∨ id = MANAGER_SESSION) →
      kill_agent p id hasSession killOk killErr =
        ⟨403, some "Cannot kill manager via API", [], none⟩) ∧
    (¬ (resolve_session_name p id = MANAGER_SESSION ∨ id = MANAGER_SESSION) →
      hasSession (resolve_session_name p id) = false →
      (kill_agent p id hasSession killOk killErr).status = 404) := by
  constructor
  · intro hmgr
    unfold kill_agent
    rw [if_pos hmgr]
  · intro hmgr hno
    unfold kill_agent
    rw [if_neg hmgr, if_pos (by simp [hno])]

/-- C8 witness: with prefix `omar-agent-`, deleting id `oma-manager` (the
reserved root, matched literally) is 403 with no kill even though the
session exists; deleting id `ghost` when `omar-agent-ghost` does not exist
is 404. -/
theorem kill_agent_guards_witness :
    kill_agent "omar-agent-" "oma-manager" (fun _ => true) true "" =
      ⟨403, some "Cannot kill manager via API", [], none⟩ ∧
    (kill_agent "omar-agent-" "ghost" (fun _ => false) true "").status = 404 := by
  constructor
  · exact (kill_agent_guards "omar-agent-" "oma-manager" (fun _ => true)
      true "").1 (by decide)
  · exact (kill_agent_guards "omar-agent-" "ghost" (fun _ => false)
      true "").2 (by decide) rfl

/-! ## Chain-of-command tree (`build_tree`, `src/app.rs`)

PMs are agents whose short name starts with `pm-`.  The tree is a flat
pre-order: the Executive-Assistant root (depth 0), each PM (depth 1)
followed by its workers (depth 2), then — if any worker has no extant PM
parent — a synthetic `Unassigned` node (depth 1) followed by the orphans
(depth 2).  The build is a total function: it cannot fail on any input. -/

/-- `CommandTreeNode` from `src/app.rs`. -/
structure CommandTreeNode where
  name : String
  sessionName : String
  health : HealthState
  depth : Nat
  isLastSibling : Bool
  ancestorIsLast : List Bool
  deriving Repr, DecidableEq

/-- The PM test: short name (prefix stripped) starts with `pm-`. -/
def isPmAgent (p : String) (a : AgentInfo) : Bool :=
  strStarts (stripPrefixOr p a.session.name) "pm-"

/-- The workers filed under a given PM session name: non-PM agents whose
parent-map entry names it (`pm_children` in the source). -/
def childrenOf (agentParents : List (String × String))
    (nonPms : List AgentInfo) (pmName : String) : List AgentInfo :=
  nonPms.filter (fun a => List.lookup a.session.name agentParents == some pmName)

/-- The orphan workers: non-PM agents with no parent entry, or whose parent
entry names no live PM. -/
def orphansOf (agentParents : List (String × String))
    (pms nonPms : List AgentInfo) : List AgentInfo :=
  nonPms.filter (fun a =>
    match List.lookup a.session.name agentParents with
    | none => true
    | some par => pms.all (fun pm => pm.session.name ≠ par))

/-- Worker nodes under one PM (depth 2); `pmIsLast` is the PM's own
`is_last_sibling`, recorded in each worker's `ancestor_is_last`. -/
def kidNodes (p : String) (pmIsLast : Bool) : List AgentInfo → List CommandTreeNode
  | [] => []
  | k :: rest =>
      ⟨stripPrefixOr p k.session.name, k.session.name, k.health, 2,
        rest.isEmpty, [true, pmIsLast]⟩ :: kidNodes p pmIsLast rest

/-- The PM display name: `Project Manager: {rest}` when the short name has
the `pm-` marker. -/
def pmDisplay (p : String) (sessionName : String) : String :=
  let short := stripPrefixOr p sessionName
  if strStarts short "pm-" then
    "Project Manager: " ++ String.mk (short.data.drop 3)
  else short

/-- The PM blocks (depth-1 PM node followed by its depth-2 workers).  A PM
is last among the root's children iff it is the last PM and no orphan group
follows. -/
def pmNodes (p : String) (agentParents : List (String × String))
    (nonPms : List AgentInfo) (orphansEmpty : Bool) :
    List AgentInfo → List CommandTreeNode
  | [] => []
  | pm :: rest =>
      let isLast := rest.isEmpty && orphansEmpty
      ⟨pmDisplay p pm.session.name, pm.session.name, pm.health, 1, isLast,
        [true]⟩ ::
        (kidNodes p isLast (childrenOf agentParents nonPms pm.session.name) ++
          pmNodes p agentParents nonPms orphansEmpty rest)

/-- Orphan worker nodes (depth 2 under the synthetic `Unassigned`). -/
def orphanNodes (p : String) : List AgentInfo → List CommandTreeNode
  | [] => []
  | a :: rest =>
      ⟨stripPrefixOr p a.session.name, a.session.name, a.health, 2,
        rest.isEmpty, [true, true]⟩ :: orphanNodes p rest

/-- The synthetic `Unassigned` group head. -/
def unassignedNode : CommandTreeNode :=
  ⟨"Unassigned", "", HealthState.Idle, 1, true, [true]⟩

/-- `build_tree` from `src/app.rs`. -/
def build_tree (agents : List AgentInfo) (manager : Option AgentInfo)
    (agentParents : List (String × String)) (p : String) :
    List CommandTreeNode :=
  let eaHealth := (manager.map (fun m => m.health)).getD HealthState.Idle
  let pms := agents.filter (isPmAgent p)
  let nonPms := agents.filter (fun a => ¬ isPmAgent p a)
  let orphans := orphansOf agentParents pms nonPms
  ⟨"Executive Assistant", MANAGER_SESSION, eaHealth, 0, true, []⟩ ::
    (pmNodes p agentParents nonPms orphans.isEmpty pms ++
      (if orphans.isEmpty then []
       else unassignedNode :: orphanNodes p orphans))

/-- The structural scan behind the depth-2-under-parent invariant: walk the
post-root node list left to right, tracking the nearest preceding depth-1
node; a depth-2 node is accepted iff that node exists and is either the
synthetic `Unassigned` head or the node named by the worker's parent-map
entry.  Returns the final tracked node, or `none` on violation. -/
def checkScan (agentParents : List (String × String)) :
    Option CommandTreeNode → List CommandTreeNode →
    Option (Option CommandTreeNode)
  | cur, [] => some cur
  | cur, n :: rest =>
      if n.depth = 1 then checkScan agentParents (some n) rest
      else if n.depth = 2 then
        match cur with
        | some h =>
            if h.name = "Unassigned" ∨
                List.lookup n.sessionName agentParents = some h.sessionName then
              checkScan agentParents cur rest
            else none
        | none => none
      else none

theorem checkScan_append (agentParents : List (String × String)) :
    ∀ (l1 l2 : List CommandTreeNode) (cur : Option CommandTreeNode),
      checkScan agentParents cur (l1 ++ l2) =
        match checkScan agentParents cur l1 with
        | some cur2 => checkScan agentParents cur2 l2
        | none => none := by
  intro l1
  induction l1 with
  | nil => intro l2 cur; rfl
  | cons n rest ih =>
      intro l2 cur
      by_cases h1 : n.depth = 1
      · simp only [List.cons_append, checkScan, if_pos h1]
        exact ih l2 (some n)
      · by_cases h2 : n.depth = 2
        · simp only [List.cons_append, checkScan, if_neg h1, if_pos h2]
          cases cur with
          | none => rfl
          | some hh =>
              by_cases h3 : hh.name = "Unassigned" ∨
                  List.lookup n.sessionName agentParents = some hh.sessionName
              · simp only [if_pos h3]
                exact ih l2 (some hh)
              · simp only [if_neg h3]
        · simp only [List.cons_append, checkScan, if_neg h1, if_neg h2]

theorem kidNodes_mem (p : String) (isLast : Bool) :
    ∀ (kids : List AgentInfo) (n : CommandTreeNode), n ∈ kidNodes p isLast kids →
      n.depth = 2 ∧ n.ancestorIsLast = [true, isLast] ∧
        ∃ k ∈ kids, n.sessionName = k.session.name := by
  intro kids
  induction kids with
  | nil => intro n hn; exact absurd hn (by simp [kidNodes])
  | cons k rest ih =>
      intro n hn
      rw [kidNodes, List.mem_cons] at hn
      rcases hn with hn | hn
      · subst hn
        exact ⟨rfl, rfl, k, by simp⟩
      · obtain ⟨h1, h2, k2, hk2, hs⟩ := ih n hn
        exact ⟨h1, h2, k2, by simp [hk2], hs⟩

theorem orphanNodes_mem (p : String) :
    ∀ (l : List AgentInfo) (n : CommandTreeNode), n ∈ orphanNodes p l →
      n.depth = 2 ∧ n.ancestorIsLast = [true, true] ∧
        ∃ k ∈ l, n.sessionName = k.session.name := by
  intro l
  induction l with
  | nil => intro n hn; exact absurd hn (by simp [orphanNodes])
  | cons k rest ih =>
      intro n hn
      rw [orphanNodes, List.mem_cons] at hn
      rcases hn with hn | hn
      · subst hn
        exact ⟨rfl, rfl, k, by simp⟩
      · obtain ⟨h1, h2, k2, hk2, hs⟩ := ih n hn
        exact ⟨h1, h2, k2, by simp [hk2], hs⟩

theorem pmNodes_mem (p : String) (agentParents : List (String × String))
    (nonPms : List AgentInfo) (oe : Bool) :
    ∀ (pms : List AgentInfo) (n : CommandTreeNode),
      n ∈ pmNodes p agentParents nonPms oe pms →
      (n.depth = 1 ∧ n.ancestorIsLast.length = 1) ∨
        (n.depth = 2 ∧ n.ancestorIsLast.length = 2) := by
  intro pms
  induction pms with
  | nil => intro n hn; exact absurd hn (by simp [pmNodes])
  | cons pm rest ih =>
      intro n hn
      rw [pmNodes, List.mem_cons] at hn
      rcases hn with hn | hn
      · subst hn
        exact Or.inl ⟨rfl, rfl⟩
      · rw [List.mem_append] at hn
        rcases hn with hn | hn
        · obtain ⟨h1, h2, _⟩ := kidNodes_mem p _ _ n hn
          exact Or.inr ⟨h1, by rw [h2]; rfl⟩
        · exact ih n hn

theorem checkScan_cons (agentParents : List (String × String))
    (cur : Option CommandTreeNode) (n : CommandTreeNode)
    (rest : List CommandTreeNode) :
    checkScan agentParents cur (n :: rest) =
      if n.depth = 1 then checkScan agentParents (some n) rest
      else if n.depth = 2 then
        match cur with
        | some h =>
            if h.name = "Unassigned" ∨
                List.lookup n.sessionName agentParents = some h.sessionName then
              checkScan agentParents cur rest
            else none
        | none => none
      else none := rfl

theorem checkScan_kids (agentParents : List (String × String)) (p : String)
    (isLast : Bool) (h0 : CommandTreeNode) :
    ∀ (kids : List AgentInfo),
      (∀ k ∈ kids,
        List.lookup k.session.name agentParents = some h0.sessionName) →
      checkScan agentParents (some h0) (kidNodes p isLast kids) =
        some (some h0) := by
  intro kids
  induction kids with
  | nil => intro _; rfl
  | cons k rest ih =>
      intro h
      rw [kidNodes, checkScan_cons]
      rw [if_neg (by simp), if_pos rfl]
      show (if h0.name = "Unassigned" ∨
          List.lookup k.session.name agentParents = some h0.sessionName then
        checkScan agentParents (some h0) (kidNodes p isLast rest)
        else none) = some (some h0)
      rw [if_pos (Or.inr (h k (by simp)))]
      exact ih (fun k2 hk2 => h k2 (by simp [hk2]))

theorem checkScan_pmNodes (agentParents : List (String × String)) (p : String)
    (nonPms : List AgentInfo) (oe : Bool) :
    ∀ (pms : List AgentInfo) (cur : Option CommandTreeNode),
      ∃ c, checkScan agentParents cur
        (pmNodes p agentParents nonPms oe pms) = some c := by
  intro pms
  induction pms with
  | nil => intro cur; exact ⟨cur, rfl⟩
  | cons pm rest ih =>
      intro cur
      set pmN : CommandTreeNode :=
        ⟨pmDisplay p pm.session.name, pm.session.name, pm.health, 1,
          rest.isEmpty && oe, [true]⟩ with hpmN
      obtain ⟨c, hc⟩ := ih (some pmN)
      refine ⟨c, ?_⟩
      rw [pmNodes, checkScan_cons, if_pos rfl, checkScan_append]
      have hkids := checkScan_kids agentParents p (rest.isEmpty && oe) pmN
        (childrenOf agentParents nonPms pm.session.name)
        (by
          intro k hk
          rw [childrenOf, List.mem_filter] at hk
          simpa using hk.2)
      rw [hkids]
      exact hc

theorem checkScan_orphans (agentParents : List (String × String)) (p : String) :
    ∀ (l : List AgentInfo) (cur : Option CommandTreeNode),
      checkScan agentParents cur (unassignedNode :: orphanNodes p l) =
        some (some unassignedNode) := by
  have main : ∀ (l : List AgentInfo),
      checkScan agentParents (some unassignedNode) (orphanNodes p l) =
        some (some unassignedNode) := by
    intro l
    induction l with
    | nil => rfl
    | cons a rest ih =>
        rw [orphanNodes, checkScan_cons]
        rw [if_neg (by simp [unassignedNode]), if_pos rfl]
        show (if unassignedNode.name = "Unassigned" ∨
            List.lookup a.session.name agentParents =
              some unassignedNode.sessionName then
          checkScan agentParents (some unassignedNode) (orphanNodes p rest)
          else none) = some (some unassignedNode)
        rw [if_pos (Or.inl (show unassignedNode.name = "Unassigned" from rfl))]
        exact ih
  intro l cur
  rw [checkScan_cons, if_pos (show unassignedNode.depth = 1 from rfl)]
  exact main l

theorem orphanNodes_of_mem (p : String) :
    ∀ (l : List AgentInfo) (a : AgentInfo), a ∈ l →
      ∃ n ∈ orphanNodes p l, n.sessionName = a.session.name ∧ n.depth = 2 := by
  intro l
  induction l with
  | nil => intro a ha; exact absurd ha (by simp)
  | cons b rest ih =>
      intro a ha
      rw [List.mem_cons] at ha
      rcases ha with ha | ha
      · subst ha
        exact ⟨_, by rw [orphanNodes]; exact List.mem_cons_self _ _, rfl, rfl⟩
      · obtain ⟨n, hn, hs, hd⟩ := ih a ha
        exact ⟨n, by rw [orphanNodes]; exact List.mem_cons_of_mem _ hn, hs, hd⟩

theorem build_tree_eq (agents : List AgentInfo) (manager : Option AgentInfo)
    (agentParents : List (String × String)) (p : String) :
    build_tree agents manager agentParents p =
      ⟨"Executive Assistant", MANAGER_SESSION,
        (manager.map (fun m => m.health)).getD HealthState.Idle, 0, true, []⟩ ::
        (pmNodes p agentParents (agents.filter (fun a => ¬ isPmAgent p a))
            (orphansOf agentParents (agents.filter (isPmAgent p))
              (agents.filter (fun a => ¬ isPmAgent p a))).isEmpty
            (agents.filter (isPmAgent p)) ++
          (if (orphansOf agentParents (agents.filter (isPmAgent p))
              (agents.filter (fun a => ¬ isPmAgent p a))).isEmpty then []
           else unassignedNode :: orphanNodes p
             (orphansOf agentParents (agents.filter (isPmAgent p))
               (agents.filter (fun a => ¬ isPmAgent p a))))) := rfl

/-- C6: on every input the built tree has exactly one depth-0 node; the
left-to-right scan confirms every depth-2 node sits under the nearest
preceding depth-1 node, which is the synthetic `Unassigned` head or the PM
named by the worker's parent-map entry; every node's `ancestor_is_last` has
length equal to its depth; and a worker whose parent entry names no live PM
is emitted as a depth-2 orphan with the `Unassigned` node present
(`build_tree` is a total function, so the build cannot fail). -/
theorem build_tree_wellformed (agents : List AgentInfo)
    (manager : Option AgentInfo) (agentParents : List (String × String))
    (p : String) :
    ((build_tree agents manager agentParents p).countP
        (fun n => n.depth == 0) = 1) ∧
    (∃ c, checkScan agentParents none
        (build_tree agents manager agentParents p).tail = some c) ∧
    (∀ n ∈ build_tree agents manager agentParents p,
      n.ancestorIsLast.length = n.depth) ∧
    (∀ a ∈ agents, isPmAgent p a = false →
      (∀ par, List.lookup a.session.name agentParents = some par →
        ∀ pm ∈ agents.filter (isPmAgent p), pm.session.name ≠ par) →
      unassignedNode ∈ build_tree agents manager agentParents p ∧
        ∃ n ∈ build_tree agents manager agentParents p,
          n.sessionName = a.session.name ∧ n.depth = 2) := by
  rw [build_tree_eq]
  set pms := agents.filter (isPmAgent p) with hpms
  set nonPms := agents.filter (fun a => ¬ isPmAgent p a) with hnonPms
  set orphans := orphansOf agentParents pms nonPms with horphans
  set rest := pmNodes p agentParents nonPms orphans.isEmpty pms ++
    (if orphans.isEmpty then []
     else unassignedNode :: orphanNodes p orphans) with hrest
  have hrestmem : ∀ n ∈ rest,
      (n.depth = 1 ∧ n.ancestorIsLast.length = 1) ∨
      (n.depth = 2 ∧ n.ancestorIsLast.length = 2) := by
    intro n hn
    rw [hrest, List.mem_append] at hn
    rcases hn with hn | hn
    · exact pmNodes_mem p agentParents nonPms orphans.isEmpty pms n hn
    · by_cases he : orphans.isEmpty
      · rw [if_pos he] at hn
        exact absurd hn (by simp)
      · rw [if_neg he, List.mem_cons] at hn
        rcases hn with hn | hn
        · subst hn
          exact Or.inl ⟨rfl, rfl⟩
        · obtain ⟨h1, h2, _⟩ := orphanNodes_mem p orphans n hn
          exact Or.inr ⟨h1, by rw [h2]; rfl⟩
  refine ⟨?_, ?_, ?_, ?_⟩
  · rw [List.countP_cons]
    have hzero : rest.countP (fun n => n.depth == 0) = 0 := by
      rw [List.countP_eq_zero]
      intro n hn
      rcases hrestmem n hn with ⟨h1, _⟩ | ⟨h1, _⟩ <;> simp [h1]
    simp [hzero]
  · show ∃ c, checkScan agentParents none rest = some c
    rw [hrest, checkScan_append]
    obtain ⟨c1, hc1⟩ :=
      checkScan_pmNodes agentParents p nonPms orphans.isEmpty pms none
    rw [hc1]
    by_cases he : orphans.isEmpty
    · rw [if_pos he]
      exact ⟨c1, rfl⟩
    · rw [if_neg he]
      show ∃ c, checkScan agentParents c1
        (unassignedNode :: orphanNodes p orphans) = some c
      rw [checkScan_orphans agentParents p orphans c1]
      exact ⟨some unassignedNode, rfl⟩
  · intro n hn
    rw [List.mem_cons] at hn
    rcases hn with hn | hn
    · subst hn; rfl
    · rcases hrestmem n hn with ⟨h1, h2⟩ | ⟨h1, h2⟩ <;> rw [h1, h2]
  · intro a ha hnp hstale
    have hanp : a ∈ nonPms := by
      rw [hnonPms, List.mem_filter]
      exact ⟨ha, by simp [hnp]⟩
    have haorph : a ∈ orphans := by
      rw [horphans, orphansOf, List.mem_filter]
      refine ⟨hanp, ?_⟩
      cases hl : List.lookup a.session.name agentParents with
      | none => rfl
      | some par =>
          have := hstale par hl
          simp only [List.all_eq_true, decide_eq_true_eq]
          intro pm hpm
          exact this pm (hpms ▸ hpm)
    have hne : orphans.isEmpty = false := by
      rw [List.isEmpty_eq_false_iff_exists_mem]
      exact ⟨a, haorph⟩
    constructor
    · apply List.mem_cons_of_mem
      rw [hrest, List.mem_append]
      right
      rw [hne]
      show unassignedNode ∈ unassignedNode :: _
      exact List.mem_cons_self _ _
    · obtain ⟨n, hn, hs, hd⟩ := orphanNodes_of_mem p orphans a haorph
      refine ⟨n, ?_, hs, hd⟩
      apply List.mem_cons_of_mem
      rw [hrest, List.mem_append]
      right
      rw [hne]
      show n ∈ unassignedNode :: orphanNodes p orphans
      exact List.mem_cons_of_mem _ hn

/-- C6 witness: a single worker whose parent entry names the non-existent
PM `omar-agent-pm-gone` is emitted as a depth-2 orphan and the `Unassigned`
node is present. -/
theorem build_tree_wellformed_witness :
    unassignedNode ∈ build_tree
      [⟨⟨"omar-agent-w1", 0, false, 1⟩, HealthState.Running,
        ⟨HealthState.Running, ""⟩⟩] none
      [("omar-agent-w1", "omar-agent-pm-gone")] "omar-agent-" ∧
    ∃ n ∈ build_tree
      [⟨⟨"omar-agent-w1", 0, false, 1⟩, HealthState.Running,
        ⟨HealthState.Running, ""⟩⟩] none
      [("omar-agent-w1", "omar-agent-pm-gone")] "omar-agent-",
      n.sessionName = "omar-agent-w1" ∧ n.depth = 2 := by
  exact (build_tree_wellformed
    [⟨⟨"omar-agent-w1", 0, false, 1⟩, HealthState.Running,
      ⟨HealthState.Running, ""⟩⟩] none
    [("omar-agent-w1", "omar-agent-pm-gone")] "omar-agent-").2.2.2
    ⟨⟨"omar-agent-w1", 0, false, 1⟩, HealthState.Running,
      ⟨HealthState.Running, ""⟩⟩ (by simp) (by decide)
    (by
      intro par hpar pm hpm
      rw [show (([⟨⟨"omar-agent-w1", 0, false, 1⟩, HealthState.Running,
        ⟨HealthState.Running, ""⟩⟩] : List AgentInfo).filter
          (isPmAgent "omar-agent-")) = [] from by decide] at hpm
      exact absurd hpm (by simp))

/-! ## `memory::write_memory` and `App::refresh` (`src/memory.rs`, `src/app.rs`)

`write_memory` loads projects, purges `worker_tasks` and `agent_parents`
entries whose key is not among the passed agents' session names (rewriting
both files), renders the markdown snapshot and writes it.  `refresh`
ensures the root session (writing the snapshot only on the creation path),
partitions the session list (skipping the dashboard session, non-prefix
sessions, and attached sessions), classifies manager and agents, purges
stale liveness frames, re-applies the name filter, reloads projects and
parents, clamps the selection and rebuilds the tree.  File effects are
tracked in an explicit write log. -/

/-- The four persisted files. -/
inductive FileId where
  | workerTasksFile
  | parentsFile
  | memoryFile
  | projectsFile
  deriving Repr, DecidableEq

/-- The on-disk state the supervisor reads and writes. -/
structure FilesState where
  workerTasks : List (String × String)
  agentParents : List (String × String)
  memoryFile : Option String
  projectsFile : String
  deriving Repr, DecidableEq

/-- The manager-context lines of the snapshot: each pane line trimmed at the
right, empty lines dropped. -/
def memoryLinesOf (output : String) : List String :=
  (((rustLines output.data).map dropTrailingWs).filter
    (fun l => ¬ l.isEmpty)).map String.mk

/-- The markdown snapshot `write_memory` renders. -/
def renderMemory (projects : List Project) (agents : List AgentInfo)
    (workerTasks : List (String × String)) (managerPresent : Bool)
    (managerCapture : Option String) : String :=
  "# OMAR State\n\n" ++
  (if projects.isEmpty then "" else
    "## Active Projects\n" ++
      String.join (projects.map (fun pr =>
        Nat.repr pr.id ++ ". " ++ pr.name ++ "\n")) ++ "\n") ++
  (if agents.isEmpty then "" else
    "## Active Workers\n" ++
      String.join (agents.map (fun a =>
        "- " ++ a.session.name ++ " (" ++ a.health.as_str ++ "): " ++
          ((List.lookup a.session.name workerTasks).getD
            "(no task assigned)") ++ "\n")) ++ "\n") ++
  ("## Manager\n" ++
    (if managerPresent then "- Status: Running\n"
     else "- Status: Not running\n") ++ "\n") ++
  (if managerPresent then
    match managerCapture with
    | some output =>
        if (memoryLinesOf output).isEmpty then ""
        else "## Manager's Recent Context\n" ++
          String.join ((memoryLinesOf output).map (fun l =>
            "> " ++ l ++ "\n")) ++ "\n"
    | none => ""
   else "")

/-- `memory::write_memory`: purge stale `worker_tasks` and `agent_parents`
keys, rewrite both files, render and write the snapshot.  `managerCapture`
is the `capture_pane` result for the manager pane (`none` when the call
fails or no manager is passed). -/
def write_memory (agents : List AgentInfo) (manager : Option AgentInfo)
    (managerCapture : Option String) (files : FilesState) :
    FilesState × List FileId :=
  let projects := parse_projects files.projectsFile
  let active := agents.map (fun a => a.session.name)
  let tasks2 := files.workerTasks.filter (fun kv => active.contains kv.1)
  let parents2 := files.agentParents.filter (fun kv => active.contains kv.1)
  let content := renderMemory projects agents tasks2 manager.isSome
    managerCapture
  (⟨tasks2, parents2, some content, files.projectsFile⟩,
   [FileId.workerTasksFile, FileId.parentsFile, FileId.memoryFile])

/-- Modelled from the spec: `check_detailed`'s `last_output` — the rightmost
non-empty captured line, trimmed and clipped to 80 columns (ANSI escape
stripping is elided; captures are taken as plain text). -/
def lastOutputOf (capture : String) : String :=
  String.mk ((trimChars
    (((rustLines capture.data).filter (fun l => ¬ l.isEmpty)).getLast?.getD
      [])).take 80)

/-- Modelled from the spec: `HealthChecker::check_detailed` — frame-diff
classification plus the short last-output line. -/
def check_detailed (frames : FrameStore) (sessionName capture : String) :
    HealthInfo × FrameStore :=
  let r := frameDiffCheck frames sessionName capture
  (⟨r.1, lastOutputOf capture⟩, r.2)

/-- Classify a session list in order, threading the frame store. -/
def classifyAll (captures : String → String) :
    FrameStore → List Session → List AgentInfo × FrameStore
  | fr, [] => ([], fr)
  | fr, s :: rest =>
      let r := check_detailed fr s.name (captures s.name)
      let tail := classifyAll captures r.2 rest
      ((⟨s, r.1.state, r.1⟩ : AgentInfo) :: tail.1, tail.2)

/-- ASCII lowercase (Rust `to_lowercase` restricted to ASCII letters). -/
def charLower (c : Char) : Char :=
  if 'A' ≤ c ∧ c ≤ 'Z' then Char.ofNat (c.toNat + 32) else c

/-- Lowercased string. -/
def strLower (s : String) : String := String.mk (s.data.map charLower)

/-- Contiguous-substring test on character lists. -/
def listInfix (sub : List Char) : List Char → Bool
  | [] => sub.isEmpty
  | c :: rest => sub.isPrefixOf (c :: rest) || listInfix sub rest

/-- Rust `str::contains` (substring test). -/
def strContains (s sub : String) : Bool := listInfix sub.data s.data

/-- The tmux environment one `refresh` observes: the session list, the
`has-session` answer for the root, and the pane-capture oracle. -/
structure TmuxWorld where
  sessions : List Session
  hasManager : Bool
  captures : String → String

/-- The supervisor state touched by `refresh`. -/
structure AppState where
  agents : List AgentInfo
  manager : Option AgentInfo
  frames : FrameStore
  filterStr : String
  selected : Nat
  projects : List Project
  agentParents : List (String × String)
  commandTree : List CommandTreeNode

/-- The `refresh` partition test on non-manager sessions: skip the
dashboard session and (when a prefix is configured) non-prefix names. -/
def ownedOther (p : String) (s : Session) : Bool :=
  s.name ≠ MANAGER_SESSION ∧ s.name ≠ DASHBOARD_SESSION ∧
    (p = "" ∨ strStarts s.name p)

/-- Manager classification inside `refresh`. -/
def refreshManagerInfo (captures : String → String) (frames : FrameStore)
    (managerSession : Option Session) : Option AgentInfo × FrameStore :=
  match managerSession with
  | some ms =>
      let r := check_detailed frames ms.name (captures ms.name)
      (some (⟨ms, r.1.state, r.1⟩ : AgentInfo), r.2)
  | none => (none, frames)

/-- `App::refresh`, as a state transformer over the supervisor state, the
file state and the observed tmux world.  Returns the new supervisor state,
the new file state, and the log of file writes performed (file writes
happen only inside `ensure_manager`'s creation branch, via
`write_memory`). -/
def refreshModel (p : String) (st : AppState) (files : FilesState)
    (world : TmuxWorld) : AppState × FilesState × List FileId :=
  let ensure :=
    if world.hasManager then (files, ([] : List FileId))
    else write_memory st.agents none none files
  let files1 := ensure.1
  let managerSession :=
    (world.sessions.filter (fun s => s.name = MANAGER_SESSION)).getLast?
  let others := world.sessions.filter (ownedOther p)
  let mgr := refreshManagerInfo world.captures st.frames managerSession
  let cls := classifyAll world.captures mgr.2
    (others.filter (fun s => ¬ s.attached))
  let agents1 := cls.1
  let active := agents1.map (fun a => a.session.name) ++
    (mgr.1.map (fun m => m.session.name)).toList
  let frames3 := cls.2.retainSessions active
  let agents2 :=
    if st.filterStr = "" then agents1
    else agents1.filter (fun a =>
      strContains (strLower a.session.name) (strLower st.filterStr))
  let projects2 := parse_projects files1.projectsFile
  let selected2 :=
    if ¬ agents2.isEmpty ∧ st.selected ≥ agents2.length then
      agents2.length - 1
    else st.selected
  let tree2 := build_tree agents2 mgr.1 files1.agentParents p
  (⟨agents2, mgr.1, frames3, st.filterStr, selected2, projects2,
    files1.agentParents, tree2⟩,
   files1, ensure.2)

theorem classifyAll_sessions (captures : String → String) :
    ∀ (l : List Session) (fr : FrameStore),
      ((classifyAll captures fr l).1).map (fun a => a.session) = l := by
  intro l
  induction l with
  | nil => intro fr; rfl
  | cons s rest ih =>
      intro fr
      show s :: ((classifyAll captures _ rest).1).map (fun a => a.session) = _
      rw [ih]

theorem refreshModel_agents_eq (p : String) (st : AppState)
    (files : FilesState) (world : TmuxWorld) :
    (refreshModel p st files world).1.agents =
      (if st.filterStr = "" then
        (classifyAll world.captures
          (refreshManagerInfo world.captures st.frames
            ((world.sessions.filter
              (fun s => s.name = MANAGER_SESSION)).getLast?)).2
          ((world.sessions.filter (ownedOther p)).filter
            (fun s => ¬ s.attached))).1
       else
        ((classifyAll world.captures
          (refreshManagerInfo world.captures st.frames
            ((world.sessions.filter
              (fun s => s.name = MANAGER_SESSION)).getLast?)).2
          ((world.sessions.filter (ownedOther p)).filter
            (fun s => ¬ s.attached))).1).filter (fun a =>
              strContains (strLower a.session.name)
                (strLower st.filterStr))) := rfl

/-- C10: after every refresh the agent list contains only non-attached
sessions; an attached session observed by the tick — even one matching the
configured prefix — never appears as any agent's session. -/
theorem refresh_agents_not_attached (p : String) (st : AppState)
    (files : FilesState) (world : TmuxWorld) :
    (∀ a ∈ (refreshModel p st files world).1.agents,
      a.session.attached = false) ∧
    (∀ s ∈ world.sessions, s.attached = true →
      ∀ a ∈ (refreshModel p st files world).1.agents, a.session ≠ s) := by
  have hbase : ∀ a ∈ (refreshModel p st files world).1.agents,
      a.session.attached = false := by
    intro a ha
    rw [refreshModel_agents_eq] at ha
    have ha1 : a ∈ (classifyAll world.captures
        (refreshManagerInfo world.captures st.frames
          ((world.sessions.filter
            (fun s => s.name = MANAGER_SESSION)).getLast?)).2
        ((world.sessions.filter (ownedOther p)).filter
          (fun s => ¬ s.attached))).1 := by
      by_cases hf : st.filterStr = ""
      · rwa [if_pos hf] at ha
      · rw [if_neg hf] at ha
        exact (List.mem_filter.mp ha).1
    have hsess : a.session ∈ (world.sessions.filter (ownedOther p)).filter
        (fun s => ¬ s.attached) := by
      rw [← classifyAll_sessions world.captures
        ((world.sessions.filter (ownedOther p)).filter
          (fun s => ¬ s.attached))
        (refreshManagerInfo world.captures st.frames
          ((world.sessions.filter
            (fun s => s.name = MANAGER_SESSION)).getLast?)).2]
      exact List.mem_map_of_mem _ ha1
    have := (List.mem_filter.mp hsess).2
    simpa using this
  refine ⟨hbase, ?_⟩
  intro s _ hs a ha hcon
  have := hbase a ha
  rw [hcon, hs] at this
  exact absurd this (by simp)

/-- C10 witness: of two prefix-matching sessions, the attached one is
excluded and the detached one kept. -/
theorem refresh_agents_not_attached_witness :
    (((refreshModel "omar-agent-" ⟨[], none, [], "", 0, [], [], []⟩
        ⟨[], [], none, ""⟩
        ⟨[⟨"omar-agent-x", 0, true, 1⟩, ⟨"omar-agent-y", 0, false, 2⟩],
          true, fun _ => ""⟩).1.agents).map (fun a => a.session.name) =
      ["omar-agent-y"]) ∧
    (∀ a ∈ (refreshModel "omar-agent-" ⟨[], none, [], "", 0, [], [], []⟩
        ⟨[], [], none, ""⟩
        ⟨[⟨"omar-agent-x", 0, true, 1⟩, ⟨"omar-agent-y", 0, false, 2⟩],
          true, fun _ => ""⟩).1.agents,
      a.session ≠ ⟨"omar-agent-x", 0, true, 1⟩) := by
  constructor
  · rfl
  · exact (refresh_agents_not_attached "omar-agent-"
      ⟨[], none, [], "", 0, [], [], []⟩ ⟨[], [], none, ""⟩
      ⟨[⟨"omar-agent-x", 0, true, 1⟩, ⟨"omar-agent-y", 0, false, 2⟩],
        true, fun _ => ""⟩).2 ⟨"omar-agent-x", 0, true, 1⟩ (by simp) rfl

theorem refreshModel_files_eq (p : String) (st : AppState)
    (files : FilesState) (world : TmuxWorld) :
    (refreshModel p st files world).2 =
      (if world.hasManager then (files, ([] : List FileId))
       else write_memory st.agents none none files) := rfl

/-- C3 counterexample: a refresh that finds the root session alive writes
no file at all — the memory snapshot is not rewritten and a stale
`parents` entry (key `omar-agent-gone`, no such session) survives,
contrary to the claim that every `refresh()` rewrites the snapshot and
purges stale keys. -/
theorem refresh_claim_counterexample :
    ((refreshModel "omar-agent-" ⟨[], none, [], "", 0, [], [], []⟩
        ⟨[], [("omar-agent-gone", "oma-manager")], none, ""⟩
        ⟨[], true, fun _ => ""⟩).2.2 = []) ∧
    ((refreshModel "omar-agent-" ⟨[], none, [], "", 0, [], [], []⟩
        ⟨[], [("omar-agent-gone", "oma-manager")], none, ""⟩
        ⟨[], true, fun _ => ""⟩).2.1.memoryFile = none) ∧
    (("omar-agent-gone", "oma-manager") ∈
      (refreshModel "omar-agent-" ⟨[], none, [], "", 0, [], [], []⟩
        ⟨[], [("omar-agent-gone", "oma-manager")], none, ""⟩
        ⟨[], true, fun _ => ""⟩).2.1.agentParents) := by
  refine ⟨rfl, rfl, ?_⟩
  show ("omar-agent-gone", "oma-manager") ∈
    [("omar-agent-gone", "oma-manager")]
  simp

/-- C3 (amended): `refresh` writes files only when it has to create the
missing root session, in which case its writes are exactly those of
`write_memory`; and every call to `write_memory` drops from `worker_tasks`
and `agent_parents` every key not among the passed agents' session names,
rewriting both files, and rewrites the memory snapshot. -/
theorem refresh_write_behavior :
    (∀ (p : String) (st : AppState) (files : FilesState) (world : TmuxWorld),
      world.hasManager = true →
        (refreshModel p st files world).2.1 = files ∧
        (refreshModel p st files world).2.2 = []) ∧
    (∀ (p : String) (st : AppState) (files : FilesState) (world : TmuxWorld),
      world.hasManager = false →
        (refreshModel p st files world).2 =
          write_memory st.agents none none files) ∧
    (∀ (agents : List AgentInfo) (manager : Option AgentInfo)
        (capture : Option String) (files : FilesState),
      (write_memory agents manager capture files).1.workerTasks =
        files.workerTasks.filter (fun kv =>
          (agents.map (fun a => a.session.name)).contains kv.1) ∧
      (write_memory agents manager capture files).1.agentParents =
        files.agentParents.filter (fun kv =>
          (agents.map (fun a => a.session.name)).contains kv.1) ∧
      (∃ content, (write_memory agents manager capture files).1.memoryFile =
        some content) ∧
      (write_memory agents manager capture files).2 =
        [FileId.workerTasksFile, FileId.parentsFile, FileId.memoryFile]) := by
  refine ⟨?_, ?_, ?_⟩
  · intro p st files world h
    have heq := refreshModel_files_eq p st files world
    rw [h, if_pos rfl] at heq
    exact ⟨congrArg Prod.fst heq, congrArg Prod.snd heq⟩
  · intro p st files world h
    have heq := refreshModel_files_eq p st files world
    rwa [h, if_neg (by simp)] at heq
  · intro agents manager capture files
    exact ⟨rfl, rfl, ⟨_, rfl⟩, rfl⟩

/-- C3 witness: a root-alive refresh writes nothing; a concrete
`write_memory` call purges the stale `worker_tasks`/`agent_parents` key
`omar-agent-gone` while keeping the live key, and writes all three files. -/
theorem refresh_write_behavior_witness :
    ((refreshModel "omar-agent-" ⟨[], none, [], "", 0, [], [], []⟩
        ⟨[], [], none, ""⟩ ⟨[], true, fun _ => ""⟩).2.2 = []) ∧
    ((write_memory
        [⟨⟨"omar-agent-x", 0, false, 1⟩, HealthState.Running,
          ⟨HealthState.Running, ""⟩⟩] none none
        ⟨[("omar-agent-x", "t"), ("omar-agent-gone", "u")],
         [("omar-agent-gone", "oma-manager")], none, ""⟩).1.workerTasks =
      [("omar-agent-x", "t")]) ∧
    ((write_memory
        [⟨⟨"omar-agent-x", 0, false, 1⟩, HealthState.Running,
          ⟨HealthState.Running, ""⟩⟩] none none
        ⟨[("omar-agent-x", "t"), ("omar-agent-gone", "u")],
         [("omar-agent-gone", "oma-manager")], none, ""⟩).1.agentParents =
      []) := by
  refine ⟨((refresh_write_behavior.1 "omar-agent-"
    ⟨[], none, [], "", 0, [], [], []⟩ ⟨[], [], none, ""⟩
    ⟨[], true, fun _ => ""⟩) rfl).2, ?_, ?_⟩
  · rw [(refresh_write_behavior.2.2
      [⟨⟨"omar-agent-x", 0, false, 1⟩, HealthState.Running,
        ⟨HealthState.Running, ""⟩⟩] none none
      ⟨[("omar-agent-x", "t"), ("omar-agent-gone", "u")],
       [("omar-agent-gone", "oma-manager")], none, ""⟩).1]
    decide
  · rw [(refresh_write_behavior.2.2
      [⟨⟨"omar-agent-x", 0, false, 1⟩, HealthState.Running,
        ⟨HealthState.Running, ""⟩⟩] none none
      ⟨[("omar-agent-x", "t"), ("omar-agent-gone", "u")],
       [("omar-agent-gone", "oma-manager")], none, ""⟩).2.1]
    decide

/-! ## Docker sandbox command wrapping (`src/sandbox/docker.rs`)

`shell_escape` leaves an argument untouched when every character is
alphanumeric (Rust `char::is_alphanumeric`) or one of `-_/.:=`; otherwise
it single-quotes the argument with embedded `'` rewritten to `'\''`.
`wrap_command` joins `"docker"` and the escaped `docker_args` with single
spaces.  The model is parametric in the alphanumeric test (the full
Unicode table is external); every theorem assumes only that the test
rejects the six shell-special characters, which Rust's does.

A standard POSIX field splitter (`psGo`) is defined to state the
round-trip property: whitespace splits words; single quotes are literal;
double quotes allow `\"`, `\\`, `\$`, backslash-backquote escapes;
an unquoted backslash escapes the next character. -/

/-- The non-alphanumeric characters `shell_escape` accepts unquoted. -/
def safePunct (c : Char) : Bool :=
  c = '-' || c = '_' || c = '/' || c = '.' || c = ':' || c = '='

/-- `s.replace('\'', "'\\''")` at the character level. -/
def escQuote : List Char → List Char
  | [] => []
  | c :: rest =>
      if c = '\'' then '\'' :: '\\' :: '\'' :: '\'' :: escQuote rest
      else c :: escQuote rest

/-- `shell_escape` from `src/sandbox/docker.rs`, parametric in the
alphanumeric test. -/
def shellEscape (isAlnum : Char → Bool) (s : String) : String :=
  if s.data.all (fun c => isAlnum c || safePunct c) then s
  else String.mk ('\'' :: escQuote s.data ++ ['\''])

/-- `Vec::join(" ")` at the character level. -/
def joinSpace : List (List Char) → List Char
  | [] => []
  | [x] => x
  | x :: y :: rest => x ++ ' ' :: joinSpace (y :: rest)

/-- Resource limits of the sandbox config.  `cpusStr` is the decimal
rendering of the `f64` `cpus` field (floating-point formatting is taken as
an opaque string). -/
structure ResourceLimits where
  memory : String
  cpusStr : String
  pidsLimit : Nat
  deriving Repr, DecidableEq

/-- Filesystem policy of the sandbox config. -/
structure FilesystemPolicy where
  workspaceAccess : String
  bindMounts : List String
  deriving Repr, DecidableEq

/-- `SandboxConfig` from `src/sandbox/config.rs` (the fields
`docker_args` reads). -/
structure SandboxConfig where
  image : String
  network : String
  limits : ResourceLimits
  filesystem : FilesystemPolicy
  deriving Repr, DecidableEq

/-- `DockerProvider::docker_args`.  Environment probes are passed in:
`resolvedBinary`/`whichPath` are the `resolve_binary_path`/`which` results
for the command's first word, `ldExists` whether the x86-64 dynamic linker
path exists, `home` the home directory, and the two `is_dir` probes for
the known agent config directories. -/
def dockerArgs (cfg : SandboxConfig) (sessionName command : String)
    (workdir : Option String) (resolvedBinary whichPath : Option String)
    (ldExists : Bool) (home : Option String)
    (claudeCfgIsDir opencodeCfgIsDir : Bool) : List String :=
  ["run", "--rm", "--name", "omar-sandbox-" ++ sessionName,
   "--network", cfg.network,
   "--security-opt", "no-new-privileges",
   "--cap-drop", "ALL",
   "--read-only", "--tmpfs", "/tmp:rw,noexec,size=512m",
   "--memory", cfg.limits.memory,
   "--cpus", cfg.limits.cpusStr,
   "--pids-limit", Nat.repr cfg.limits.pidsLimit] ++
  (match workdir with
   | some dir =>
       ["-v", dir ++ ":/workspace:" ++ cfg.filesystem.workspaceAccess,
        "-w", "/workspace"]
   | none => []) ++
  (match resolvedBinary with
   | some rp =>
       ["-v", rp ++ ":" ++ rp ++ ":ro"] ++
       (match whichPath with
        | some wp => if wp ≠ rp then ["-v", wp ++ ":" ++ wp ++ ":ro"] else []
        | none => []) ++
       (if ldExists then
         ["-v", "/lib64/ld-linux-x86-64.so.2:/lib64/ld-linux-x86-64.so.2:ro"]
        else [])
   | none => []) ++
  (match home with
   | some h =>
       (if claudeCfgIsDir then
         ["-v", h ++ "/.claude:" ++ h ++ "/.claude:ro", "-e", "HOME=" ++ h]
        else []) ++
       (if opencodeCfgIsDir then
         ["-v", h ++ "/.config/opencode:" ++ h ++ "/.config/opencode:ro"]
        else [])
   | none => []) ++
  (cfg.filesystem.bindMounts.map (fun m =>
    ["-v", if m.data.contains ':' then m else m ++ ":" ++ m ++ ":ro"])).flatten ++
  ["-it", cfg.image, "sh", "-c", command]

/-- `DockerProvider::wrap_command`: `"docker"` followed by the escaped
arguments, joined by single spaces. -/
def wrap_command (isAlnum : Char → Bool) (args : List String) : String :=
  String.mk (joinSpace (("docker" :: args.map (shellEscape isAlnum)).map
    String.data))

/-- Splitter state: outside quotes, inside single quotes, inside double
quotes. -/
inductive SplitSt where
  | norm
  | single
  | double
  deriving Repr, DecidableEq

/-- One pass of a standard POSIX field splitter (no expansions): `inW`
tells whether a word is in progress, `cur` is its accumulated text, `acc`
the finished words.  Returns `none` on an unterminated quote. -/
def psGo : SplitSt → Bool → List Char → List (List Char) → List Char →
    Option (List (List Char))
  | .norm, inW, cur, acc, [] => some (acc ++ if inW then [cur] else [])
  | .single, _, _, _, [] => none
  | .double, _, _, _, [] => none
  | .norm, inW, cur, acc, c :: rest =>
      if c = ' ' ∨ c = '\t' ∨ c = '\n' then
        psGo .norm false [] (acc ++ if inW then [cur] else []) rest
      else if c = '\'' then psGo .single true cur acc rest
      else if c = '"' then psGo .double true cur acc rest
      else if c = '\\' then
        match rest with
        | [] => psGo .norm true (cur ++ ['\\']) acc []
        | d :: rest2 =>
            if d = '\n' then psGo .norm inW cur acc rest2
            else psGo .norm true (cur ++ [d]) acc rest2
      else psGo .norm true (cur ++ [c]) acc rest
  | .single, _, cur, acc, c :: rest =>
      if c = '\'' then psGo .norm true cur acc rest
      else psGo .single true (cur ++ [c]) acc rest
  | .double, _, cur, acc, c :: rest =>
      if c = '"' then psGo .norm true cur acc rest
      else if c = '\\' then
        match rest with
        | [] => none
        | d :: rest2 =>
            if d = '"' ∨ d = '\\' ∨ d = '$' ∨ d = Char.ofNat 96 then
              psGo .double true (cur ++ [d]) acc rest2
            else if d = '\n' then psGo .double true cur acc rest2
            else psGo .double true (cur ++ ['\\', d]) acc rest2
      else psGo .double true (cur ++ [c]) acc rest

/-- POSIX field splitting of a full command line. -/
def posixSplit (s : String) : Option (List String) :=
  (psGo .norm false [] [] s.data).map (fun ls => ls.map String.mk)

theorem psGo_norm_nil (inW : Bool) (cur : List Char)
    (acc : List (List Char)) :
    psGo .norm inW cur acc [] = some (acc ++ if inW then [cur] else []) := rfl

theorem psGo_norm_cons (inW : Bool) (cur : List Char)
    (acc : List (List Char)) (c : Char) (rest : List Char) :
    psGo .norm inW cur acc (c :: rest) =
      if c = ' ' ∨ c = '\t' ∨ c = '\n' then
        psGo .norm false [] (acc ++ if inW then [cur] else []) rest
      else if c = '\'' then psGo .single true cur acc rest
      else if c = '"' then psGo .double true cur acc rest
      else if c = '\\' then
        match rest with
        | [] => psGo .norm true (cur ++ ['\\']) acc []
        | d :: rest2 =>
            if d = '\n' then psGo .norm inW cur acc rest2
            else psGo .norm true (cur ++ [d]) acc rest2
      else psGo .norm true (cur ++ [c]) acc rest := by
  cases rest with
  | nil => rfl
  | cons d rest2 => rfl

theorem psGo_single_cons (inW : Bool) (cur : List Char)
    (acc : List (List Char)) (c : Char) (rest : List Char) :
    psGo .single inW cur acc (c :: rest) =
      if c = '\'' then psGo .norm true cur acc rest
      else psGo .single true (cur ++ [c]) acc rest := rfl

/-- The characters the splitter treats specially outside quotes. -/
def NotSpecial (c : Char) : Prop :=
  c ≠ ' ' ∧ c ≠ '\t' ∧ c ≠ '\n' ∧ c ≠ '\'' ∧ c ≠ '"' ∧ c ≠ '\\'

/-- The only assumption on the alphanumeric test: it rejects the six
shell-special characters (true of Rust's `char::is_alphanumeric`). -/
def SafeForShell (isAlnum : Char → Bool) : Prop :=
  isAlnum ' ' = false ∧ isAlnum '\t' = false ∧ isAlnum '\n' = false ∧
    isAlnum '\'' = false ∧ isAlnum '"' = false ∧ isAlnum '\\' = false

theorem notSpecial_of_safe {isAlnum : Char → Bool}
    (hS : SafeForShell isAlnum) {c : Char}
    (h : (isAlnum c || safePunct c) = true) : NotSpecial c := by
  rw [Bool.or_eq_true] at h
  rcases h with h | h
  · obtain ⟨h1, h2, h3, h4, h5, h6⟩ := hS
    refine ⟨?_, ?_, ?_, ?_, ?_, ?_⟩ <;>
      · intro hc
        subst hc
        simp_all
  · rw [safePunct] at h
    simp only [Bool.or_eq_true, decide_eq_true_eq] at h
    rcases h with ((((h | h) | h) | h) | h) | h <;> subst h <;>
      exact ⟨by decide, by decide, by decide, by decide, by decide, by decide⟩

theorem psGo_consume_plain :
    ∀ (xs : List Char), (∀ c ∈ xs, NotSpecial c) →
      ∀ (cur : List Char) (acc : List (List Char)) (rest : List Char),
        psGo .norm true cur acc (xs ++ rest) =
          psGo .norm true (cur ++ xs) acc rest := by
  intro xs
  induction xs with
  | nil => intro _ cur acc rest; rw [List.nil_append, List.append_nil]
  | cons c xs ih =>
      intro h cur acc rest
      obtain ⟨h1, h2, h3, h4, h5, h6⟩ := h c (by simp)
      rw [List.cons_append, psGo_norm_cons,
        if_neg (by simp [h1, h2, h3]), if_neg h4, if_neg h5, if_neg h6,
        ih (fun d hd => h d (by simp [hd])) (cur ++ [c]) acc rest,
        List.append_assoc, List.singleton_append]

theorem psGo_consume_quoted :
    ∀ (xs cur : List Char) (acc : List (List Char)) (rest : List Char),
      psGo .single true cur acc (escQuote xs ++ '\'' :: rest) =
        psGo .norm true (cur ++ xs) acc rest := by
  intro xs
  induction xs with
  | nil =>
      intro cur acc rest
      rw [show escQuote [] = [] from rfl, List.nil_append, psGo_single_cons,
        if_pos rfl, List.append_nil]
  | cons c xs ih =>
      intro cur acc rest
      by_cases hc : c = '\''
      · subst hc
        rw [show escQuote ('\'' :: xs) =
          '\'' :: '\\' :: '\'' :: '\'' :: escQuote xs from rfl]
        rw [List.cons_append, psGo_single_cons, if_pos rfl]
        rw [List.cons_append, psGo_norm_cons,
          if_neg (by decide), if_neg (by decide), if_neg (by decide),
          if_pos rfl]
        rw [List.cons_append]
        show psGo .norm true (cur ++ ['\'']) acc
          ('\'' :: (escQuote xs ++ '\'' :: rest)) = _
        rw [psGo_norm_cons, if_neg (by decide), if_pos rfl]
        rw [ih (cur ++ ['\'']) acc rest, List.append_assoc,
          List.singleton_append]
      · rw [show escQuote (c :: xs) = c :: escQuote xs from by
          rw [escQuote, if_neg hc]]
        rw [List.cons_append, psGo_single_cons, if_neg hc,
          ih (cur ++ [c]) acc rest, List.append_assoc, List.singleton_append]

theorem psGo_consume_word :
    ∀ (xs : List Char), (∀ c ∈ xs, NotSpecial c) → xs ≠ [] →
      ∀ (acc : List (List Char)) (rest : List Char),
        psGo .norm false [] acc (xs ++ rest) = psGo .norm true xs acc rest := by
  intro xs h hne acc rest
  cases xs with
  | nil => exact absurd rfl hne
  | cons c cs =>
      obtain ⟨h1, h2, h3, h4, h5, h6⟩ := h c (by simp)
      rw [List.cons_append, psGo_norm_cons,
        if_neg (by simp [h1, h2, h3]), if_neg h4, if_neg h5, if_neg h6,
        List.nil_append,
        psGo_consume_plain cs (fun d hd => h d (by simp [hd])) [c] acc rest,
        List.singleton_append]

theorem psGo_consume_escape {isAlnum : Char → Bool}
    (hS : SafeForShell isAlnum) (s : String) (hne : s.data ≠ []) :
    ∀ (acc : List (List Char)) (rest : List Char),
      psGo .norm false [] acc ((shellEscape isAlnum s).data ++ rest) =
        psGo .norm true s.data acc rest := by
  intro acc rest
  by_cases hall : s.data.all (fun c => isAlnum c || safePunct c)
  · rw [shellEscape, if_pos hall]
    refine psGo_consume_word s.data ?_ hne acc rest
    intro c hc
    exact notSpecial_of_safe hS (by
      have := List.all_eq_true.mp hall c hc
      simpa using this)
  · have hsplit : (('\'' :: escQuote s.data ++ ['\'']) : List Char) ++ rest =
        '\'' :: (escQuote s.data ++ '\'' :: rest) := by simp
    rw [shellEscape, if_neg hall]
    show psGo .norm false [] acc
      ((('\'' :: escQuote s.data ++ ['\'']) : List Char) ++ rest) = _
    rw [hsplit, psGo_norm_cons, if_neg (by decide), if_pos rfl,
      psGo_consume_quoted s.data [] acc rest, List.nil_append]

theorem joinSpace_cons_cons (x y : List Char) (r : List (List Char)) :
    joinSpace (x :: y :: r) = x ++ ' ' :: joinSpace (y :: r) := rfl

theorem psGo_wrap_args {isAlnum : Char → Bool} (hS : SafeForShell isAlnum) :
    ∀ (args : List String), (∀ a ∈ args, a.data ≠ []) →
      ∀ (acc : List (List Char)),
        psGo .norm false [] acc
          (joinSpace (args.map (fun a => (shellEscape isAlnum a).data))) =
          some (acc ++ args.map String.data) := by
  intro args
  induction args with
  | nil => intro _ acc; simp [joinSpace, psGo_norm_nil]
  | cons a args ih =>
      intro h acc
      cases args with
      | nil =>
          rw [List.map_cons, List.map_nil,
            show joinSpace [(shellEscape isAlnum a).data] =
              (shellEscape isAlnum a).data from rfl,
            ← List.append_nil ((shellEscape isAlnum a).data),
            psGo_consume_escape hS a (h a (by simp)) acc [],
            psGo_norm_nil]
          simp
      | cons b args2 =>
          rw [List.map_cons, List.map_cons, joinSpace_cons_cons,
            psGo_consume_escape hS a (h a (by simp)) acc _,
            psGo_norm_cons, if_pos (Or.inl rfl)]
          show psGo .norm false [] (acc ++ [a.data])
            (joinSpace ((b :: args2).map
              (fun a => (shellEscape isAlnum a).data))) = _
          rw [ih (fun x hx => h x (by simp [hx])) (acc ++ [a.data])]
          simp

theorem docker_chars : ∀ c ∈ ("docker" : String).data, NotSpecial c := by
  have hd : ("docker" : String).data = ['d', 'o', 'c', 'k', 'e', 'r'] := rfl
  intro c hc
  rw [hd] at hc
  simp only [List.mem_cons, List.not_mem_nil, or_false] at hc
  rcases hc with h | h | h | h | h | h <;> subst h <;>
    exact ⟨by decide, by decide, by decide, by decide, by decide, by decide⟩

theorem wrap_command_split {isAlnum : Char → Bool} (hS : SafeForShell isAlnum)
    (args : List String) (hne : ∀ a ∈ args, a.data ≠ []) :
    posixSplit (wrap_command isAlnum args) = some ("docker" :: args) := by
  rw [posixSplit, wrap_command]
  show (psGo .norm false [] []
    (joinSpace (("docker" :: args.map (shellEscape isAlnum)).map
      String.data))).map (fun ls => ls.map String.mk) = _
  cases args with
  | nil =>
      rw [List.map_nil, List.map_cons, List.map_nil,
        show joinSpace [("docker" : String).data] =
          ("docker" : String).data from rfl,
        ← List.append_nil (("docker" : String).data),
        psGo_consume_word ("docker" : String).data docker_chars (by decide)
          [] [],
        psGo_norm_nil]
      rfl
  | cons a args2 =>
      rw [List.map_cons, List.map_map, List.map_cons, joinSpace_cons_cons,
        psGo_consume_word ("docker" : String).data docker_chars (by decide)
          [] _,
        psGo_norm_cons, if_pos (Or.inl rfl)]
      show (psGo .norm false [] [("docker" : String).data]
        (joinSpace ((a :: args2).map
          (fun x => (shellEscape isAlnum x).data)))).map
            (fun ls => ls.map String.mk) = _
      rw [psGo_wrap_args hS (a :: args2) hne [("docker" : String).data]]
      show some ((("docker" : String).data ::
        (a :: args2).map String.data).map String.mk) = _
      rw [List.map_cons]
      have : ((a :: args2).map String.data).map String.mk = a :: args2 := by
        rw [List.map_map]
        have : (String.mk ∘ String.data) = id := by
          funext x
          rfl
        rw [this, List.map_id]
      rw [this]

set_option maxRecDepth 4000 in
/-- C9 counterexample: the claim fails on the code as stated.  With
`command = ""` the wrapper emits the empty string as the final `sh -c`
argument; `shell_escape` leaves it unquoted, so the produced command ends
in a dangling space and POSIX splitting does not recover the argument. -/
theorem sandbox_claim_counterexample :
    ("" ∈ dockerArgs ⟨"ubuntu:22.04", "none", ⟨"4g", "2", 256⟩, ⟨"rw", []⟩⟩
      "w1" "" none none none false none false false) ∧
    (posixSplit (wrap_command Char.isAlphanum
      (dockerArgs ⟨"ubuntu:22.04", "none", ⟨"4g", "2", 256⟩, ⟨"rw", []⟩⟩
        "w1" "" none none none false none false false)) =
      some ["docker", "run", "--rm", "--name", "omar-sandbox-w1",
        "--network", "none", "--security-opt", "no-new-privileges",
        "--cap-drop", "ALL", "--read-only", "--tmpfs",
        "/tmp:rw,noexec,size=512m", "--memory", "4g", "--cpus", "2",
        "--pids-limit", "256", "-it", "ubuntu:22.04", "sh", "-c"]) ∧
    (("" : String) ∉ ["docker", "run", "--rm", "--name", "omar-sandbox-w1",
        "--network", "none", "--security-opt", "no-new-privileges",
        "--cap-drop", "ALL", "--read-only", "--tmpfs",
        "/tmp:rw,noexec,size=512m", "--memory", "4g", "--cpus", "2",
        "--pids-limit", "256", "-it", "ubuntu:22.04", "sh", "-c"]) := by
  refine ⟨by decide, by decide, by decide⟩

/-- C9 (amended): for every list of *nonempty* arguments, POSIX-splitting
the produced command recovers `docker` followed by exactly the original
arguments; an argument containing any character that fails the code's
safe-character test (alphanumeric, or one of `-_/.:=`) is single-quoted
with embedded single quotes escaped; the empty argument is emitted
verbatim (unquoted) and therefore vanishes on re-parsing.  The
alphanumeric test is assumed only to reject the six shell-special
characters, which holds of Rust's Unicode `char::is_alphanumeric`. -/
theorem wrap_command_roundtrip (isAlnum : Char → Bool)
    (hS : SafeForShell isAlnum) (args : List String)
    (hne : ∀ a ∈ args, a.data ≠ []) :
    posixSplit (wrap_command isAlnum args) = some ("docker" :: args) ∧
    (∀ s : String, s.data.all (fun c => isAlnum c || safePunct c) = false →
      shellEscape isAlnum s = String.mk ('\'' :: escQuote s.data ++ ['\''])) ∧
    shellEscape isAlnum "" = "" :=
  ⟨wrap_command_split hS args hne,
   fun _ h => by rw [shellEscape, if_neg (by simp [h])],
   rfl⟩

/-- C9 witness: a concrete escaped command round-trips, including an
argument with spaces and an embedded single quote. -/
theorem wrap_command_roundtrip_witness :
    posixSplit (wrap_command Char.isAlphanum
      ["run", "--name", "it's a dir"]) =
      some ["docker", "run", "--name", "it's a dir"] :=
  (wrap_command_roundtrip Char.isAlphanum
    ⟨by decide, by decide, by decide, by decide, by decide, by decide⟩
    ["run", "--name", "it's a dir"] (by decide)).1

end Omar
